import Mathlib

/-!
# authelia-oauth-proxy: scope injection in front of Authelia

A shallow embedding of `containers/authelia-oauth-proxy/main.go` together with the
parts of the Go standard library its behaviour is decided by (`strings`, `net/url`,
`net/http/httputil`, `net/http`), followed by the properties of the query rewrite
and of the routing.

Go strings are byte sequences; they are modelled as lists of bytes. The standard
library is taken as of the Go releases in which `url.ParseQuery` rejects `;` as a
separator and refuses a query of more than 10000 `&`-separated pieces, and in which
`http.ServeMux` routes on the segments of the escaped path (Go 1.22 and later).

The server is modelled from the point where it has read a request from a connection
and hands it to its handler; what it refuses while reading never becomes a request.
-/

set_option autoImplicit false

/-- A Go `byte`. -/
abbrev Byte := Fin 256

/-- A Go `string`: an immutable sequence of bytes. -/
abbrev GoString := List Byte

/-- The byte of an ASCII character literal. -/
def ch (c : Char) : Byte := Fin.ofNat c.toNat

/-- The bytes of an ASCII string literal. -/
def str (s : String) : GoString := s.toList.map ch

/-! ## package strings -/

namespace strings

/-- Go function `strings.HasPrefix`: `len(s) >= len(prefix) && s[:len(prefix)] == prefix`. -/
def HasPrefix (s pre : GoString) : Bool :=
  decide (s.length ≥ pre.length) && (s.take pre.length == pre)

/-- Go function `strings.HasSuffix`: `len(s) >= len(suffix) && s[len(s)-len(suffix):] == suffix`. -/
def HasSuffix (s suffix : GoString) : Bool :=
  decide (s.length ≥ suffix.length) && (s.drop (s.length - suffix.length) == suffix)

/-- Go function `strings.Index`: the index of the first instance of `substr` in `s`, `none` for Go's `-1`. -/
def Index : GoString → GoString → Option Nat
  | [], substr => if substr.length = 0 then some 0 else none
  | c :: s, substr =>
    if HasPrefix (c :: s) substr then some 0
    else (Index s substr).map (· + 1)

/-- Go function `strings.Contains`: `Index(s, substr) >= 0`. -/
def Contains (s substr : GoString) : Bool := (Index s substr).isSome

/-- Go function `strings.Count` for a `substr` of the one byte `c`: the number of
instances of `c` in `s`. -/
def Count (s : GoString) (c : Byte) : Nat := s.count c

/-- Go function `strings.Split` for a `sep` of the one byte `sep`: the pieces of `s`
between the instances of `sep`. -/
def Split : GoString → Byte → List GoString
  | [], _ => [[]]
  | c :: s, sep =>
    if c = sep then [] :: Split s sep
    else
      match Split s sep with
      | [] => [[c]]
      | x :: xs => (c :: x) :: xs

/-- Go function `strings.Cut`: slices `s` around the first instance of `sep`. -/
def Cut (s sep : GoString) : GoString × GoString × Bool :=
  match Index s sep with
  | some i => (s.take i, s.drop (i + sep.length), true)
  | none => (s, [], false)

end strings

/-! ## package net/url -/

namespace url

/-- The escaping modes of `net/url` that the program reaches: `encodePath` (through
`URL.EscapedPath`), `encodePathSegment` (through `url.PathUnescape`, in the routing)
and `encodeQueryComponent` (through `Values.Encode` and `ParseQuery`). -/
inductive encoding where
  | encodePath
  | encodePathSegment
  | encodeQueryComponent
  deriving DecidableEq, Repr

/-- The errors of `net/url` that query parsing produces. -/
inductive Error where
  | EscapeError (s : GoString)
  | invalidSemicolon
  | tooManyParams
  deriving DecidableEq, Repr

def upperhex : GoString := str "0123456789ABCDEF"

/-- Go function `url.ishex`. -/
def ishex (c : Byte) : Bool :=
  (ch '0' ≤ c && c ≤ ch '9') || (ch 'a' ≤ c && c ≤ ch 'f') || (ch 'A' ≤ c && c ≤ ch 'F')

/-- Go function `url.unhex`. -/
def unhex (c : Byte) : Byte :=
  if ch '0' ≤ c && c ≤ ch '9' then c - ch '0'
  else if ch 'a' ≤ c && c ≤ ch 'f' then c - ch 'a' + 10
  else if ch 'A' ≤ c && c ≤ ch 'F' then c - ch 'A' + 10
  else 0

/-- Go function `url.shouldEscape` for the modes above: alphanumerics and `-_.~` are
never escaped; of the reserved characters, path mode escapes only `?`, path-segment
mode `/`, `;`, `,` and `?`, and query-component mode all; everything else is escaped. -/
def shouldEscape (c : Byte) (mode : encoding) : Bool :=
  if (ch 'a' ≤ c && c ≤ ch 'z') || (ch 'A' ≤ c && c ≤ ch 'Z') || (ch '0' ≤ c && c ≤ ch '9') then
    false
  else if c = ch '-' || c = ch '_' || c = ch '.' || c = ch '~' then
    false
  else if c = ch '$' || c = ch '&' || c = ch '+' || c = ch ',' || c = ch '/' || c = ch ':'
      || c = ch ';' || c = ch '=' || c = ch '?' || c = ch '@' then
    match mode with
    | .encodePath => c = ch '?'
    | .encodePathSegment => c = ch '/' || c = ch ';' || c = ch ',' || c = ch '?'
    | .encodeQueryComponent => true
  else
    true

/-- Go function `url.escape`: bytes that need no escaping are copied, a space in query-component
mode becomes `+`, every other byte becomes `%` and two upper-case hex digits. -/
def escape : GoString → encoding → GoString
  | [], _ => []
  | c :: s, mode =>
    (if !shouldEscape c mode then [c]
     else if c = ch ' ' && mode = .encodeQueryComponent then [ch '+']
     else [ch '%', upperhex.getD (c.val >>> 4) 0, upperhex.getD (c.val &&& 15) 0])
    ++ escape s mode

/-- Go function `url.unescape` for the modes above: a `%` must be followed by two hex digits
(otherwise `EscapeError` with up to three bytes from the `%` on) and decodes to one
byte, `+` decodes to a space in query-component mode. -/
def unescape : GoString → encoding → Except Error GoString
  | [], _ => .ok []
  | c :: s, mode =>
    if c = ch '%' then
      match s with
      | a :: b :: rest =>
        if ishex a && ishex b then
          match unescape rest mode with
          | .ok t => .ok ((unhex a <<< 4 ||| unhex b) :: t)
          | .error e => .error e
        else .error (.EscapeError ((c :: s).take 3))
      | _ => .error (.EscapeError ((c :: s).take 3))
    else
      match unescape s mode with
      | .ok t => .ok ((if c = ch '+' && mode = .encodeQueryComponent then ch ' ' else c) :: t)
      | .error e => .error e

/-- Go function `url.QueryEscape`. -/
def QueryEscape (s : GoString) : GoString := escape s .encodeQueryComponent

/-- Go function `url.PathUnescape`. -/
def PathUnescape (s : GoString) : Except Error GoString := unescape s .encodePathSegment

/-- Go function `url.QueryUnescape`. -/
def QueryUnescape (s : GoString) : Except Error GoString := unescape s .encodeQueryComponent

/-- Go type `url.Values`, a `map[string][]string`: an association list with one entry per key. -/
abbrev Values := List (GoString × List GoString)

namespace Values

/-- The map read `v[key]`: the empty slice when the key is absent. -/
def lookup : Values → GoString → List GoString
  | [], _ => []
  | (k, vs) :: rest, key => if k = key then vs else lookup rest key

/-- The map write `v[key] = vs`. -/
def store : Values → GoString → List GoString → Values
  | [], key, vs => [(key, vs)]
  | (k, ws) :: rest, key, vs => if k = key then (k, vs) :: rest else (k, ws) :: store rest key vs

/-- The keys of the map, each once. -/
def keys (v : Values) : List GoString := v.map Prod.fst

/-- Go function `Values.Get`: the first value associated with the key, `""` if there is none. -/
def Get (v : Values) (key : GoString) : GoString :=
  match v.lookup key with
  | [] => []
  | x :: _ => x

/-- Go function `Values.Set`: `v[key] = []string{value}`. -/
def Set (v : Values) (key value : GoString) : Values := v.store key [value]

/-- Go's `<` on strings: bytewise lexicographic order. -/
def less : GoString → GoString → Bool
  | [], [] => false
  | [], _ :: _ => true
  | _ :: _, [] => false
  | a :: s, b :: t => if a < b then true else if b < a then false else less s t

/-- Go call `slices.Sort(keys)`: the keys in ascending order (they are distinct). -/
def sortKeys (ks : List GoString) : List GoString :=
  ks.insertionSort (fun a b => less b a = false)

/-- One pass of the inner loop of `Values.Encode`: `&` unless the buffer is empty,
then the escaped key, `=`, the escaped value. -/
def writePair (keyEscaped : GoString) (buf : GoString) (value : GoString) : GoString :=
  (if buf.length > 0 then buf ++ [ch '&'] else buf) ++ keyEscaped ++ [ch '='] ++ QueryEscape value

/-- Go function `Values.Encode`: the URL-encoded form `bar=baz&foo=quux`, sorted by key. -/
def Encode (v : Values) : GoString :=
  if v.length = 0 then []
  else
    (sortKeys v.keys).foldl
      (fun buf k => (v.lookup k).foldl (writePair (QueryEscape k)) buf) []

end Values

/-- The body of the loop of `url.parseQuery` for one `&`-separated piece `key`:
a piece with a semicolon sets the error and is skipped, an empty piece is skipped,
otherwise the piece is cut at the first `=`, both halves are unescaped (a failure
records the first such error and skips the piece) and the value is appended to
`m[key]`. -/
def parsePair (st : Values × Option Error) (key : GoString) : Values × Option Error :=
  let (m, err) := st
  if strings.Contains key (str ";") then (m, some .invalidSemicolon)
  else if key = [] then (m, err)
  else
    let (key, value, _) := strings.Cut key (str "=")
    match QueryUnescape key with
    | .error err1 => (m, if err = none then some err1 else err)
    | .ok key =>
      match QueryUnescape value with
      | .error err1 => (m, if err = none then some err1 else err)
      | .ok value => (m.store key (m.lookup key ++ [value]), err)

/-- The loop `for query != ""` of `url.parseQuery`; every pass removes at least one
byte of `query`, and `fuel` bounds the number of passes. -/
def parseQueryLoop : Nat → Values × Option Error → GoString → Values × Option Error
  | 0, st, _ => st
  | fuel + 1, st, query =>
    if query = [] then st
    else
      let (key, query, _) := strings.Cut query (str "&")
      parseQueryLoop fuel (parsePair st key) query

def defaultMaxParams : Nat := 10000

/-- Go function `url.urlParamsWithinMax` with the setting `urlmaxqueryparams` of
`GODEBUG` left unset: at most `defaultMaxParams` parameters. -/
def urlParamsWithinMax (params : Nat) : Bool := decide (params ≤ defaultMaxParams)

/-- Go function `url.parseQuery`: a query of more than `defaultMaxParams` pieces
(one more than its number of `&`) is refused whole, with `m` left as it is; otherwise
the loop runs over the pieces. -/
def parseQuery (m : Values) (query : GoString) : Values × Option Error :=
  if !urlParamsWithinMax (strings.Count query (ch '&') + 1) then (m, some .tooManyParams)
  else parseQueryLoop query.length (m, none) query

/-- Go function `url.ParseQuery`: the values of the well-formed pairs and the first
error met; no values at all for a query over the limit. -/
def ParseQuery (query : GoString) : Values × Option Error := parseQuery [] query


/-- The fields of `url.URL` that the proxy reads or writes. -/
structure URL where
  Scheme : GoString
  Host : GoString
  Path : GoString
  RawPath : GoString
  RawQuery : GoString
  deriving DecidableEq, Repr

/-- Go function `url.validEncoded`: whether `s` is a valid encoded path. -/
def validEncoded : GoString → encoding → Bool
  | [], _ => true
  | c :: s, mode =>
    if c = ch '!' || c = ch '$' || c = ch '&' || c = 39 || c = ch '(' || c = ch ')'
        || c = ch '*' || c = ch '+' || c = ch ',' || c = ch ';' || c = ch '=' || c = ch ':'
        || c = ch '@' || c = ch '[' || c = ch ']' || c = ch '%' then
      validEncoded s mode
    else if shouldEscape c mode then false
    else validEncoded s mode

/-- Go function `URL.EscapedPath`: `RawPath` when it is a valid encoding of `Path`, otherwise the
escaped `Path`. -/
def URL.EscapedPath (u : URL) : GoString :=
  if u.RawPath ≠ [] && validEncoded u.RawPath .encodePath
      && (match unescape u.RawPath .encodePath with
          | .ok p => p == u.Path
          | .error _ => false) then
    u.RawPath
  else if u.Path = str "*" then str "*"
  else escape u.Path .encodePath

/-- Go function `URL.Query`: parses `RawQuery` and silently discards malformed pairs. -/
def URL.Query (u : URL) : Values := (ParseQuery u.RawQuery).1

end url

/-! ## package net/http: the request -/

namespace http

/-- The fields of `http.Request` that the proxy and the routing read or write. -/
structure Request where
  Method : GoString
  RequestURI : GoString
  URL : url.URL
  Header : List (GoString × List GoString)
  Body : GoString
  RemoteAddr : GoString
  deriving DecidableEq, Repr

end http

/-! ## package net/http/httputil -/

namespace httputil

/-- Go function `httputil.singleJoiningSlash`. -/
def singleJoiningSlash (a b : GoString) : GoString :=
  let aslash := strings.HasSuffix a (str "/")
  let bslash := strings.HasPrefix b (str "/")
  if aslash && bslash then a ++ b.drop 1
  else if !aslash && !bslash then a ++ str "/" ++ b
  else a ++ b

/-- Go function `httputil.joinURLPath`: the joined `Path` and `RawPath`. -/
def joinURLPath (a b : url.URL) : GoString × GoString :=
  if a.RawPath = [] ∧ b.RawPath = [] then (singleJoiningSlash a.Path b.Path, [])
  else
    let apath := a.EscapedPath
    let bpath := b.EscapedPath
    let aslash := strings.HasSuffix apath (str "/")
    let bslash := strings.HasPrefix bpath (str "/")
    if aslash && bslash then (a.Path ++ b.Path.drop 1, apath ++ bpath.drop 1)
    else if !aslash && !bslash then (a.Path ++ str "/" ++ b.Path, apath ++ str "/" ++ bpath)
    else (a.Path ++ b.Path, apath ++ bpath)

/-- Go function `httputil.rewriteRequestURL`, the Director that `NewSingleHostReverseProxy(target)`
installs: scheme and host become the target's, the paths are joined and the target's
query, if any, is put in front of the request's. -/
def rewriteRequestURL (req : http.Request) (target : url.URL) : http.Request :=
  let targetQuery := target.RawQuery
  let (path, rawpath) := joinURLPath target req.URL
  { req with
    URL :=
      { Scheme := target.Scheme
        Host := target.Host
        Path := path
        RawPath := rawpath
        RawQuery :=
          if targetQuery = [] ∨ req.URL.RawQuery = [] then targetQuery ++ req.URL.RawQuery
          else targetQuery ++ str "&" ++ req.URL.RawQuery } }

end httputil

/-! ## main.go -/

namespace main

def autheliaURL : GoString := str "http://authelia-app:9091"

def proxyPort : GoString := str ":8080"

def groupsScope : GoString := str "groups"

/-- The result of `url.Parse(autheliaURL)`: scheme `http`, host `authelia-app:9091`,
no path and no query. -/
def upstream : url.URL :=
  { Scheme := str "http", Host := str "authelia-app:9091", Path := [], RawPath := [], RawQuery := [] }

/-- The Director of `httputil.NewSingleHostReverseProxy(upstream)`. -/
def originalDirector (req : http.Request) : http.Request :=
  httputil.rewriteRequestURL req upstream

/-- The `proxy.Director` closure of `main`: after the original director, a request
whose path starts with `/api/oidc/authorization` and whose `scope` is non-empty and
does not contain `groups` gets `scope` set to `scope + " " + groups` and its raw query
re-encoded. (The `log.Printf` of that branch does not touch the request.) -/
def Director (req : http.Request) : http.Request :=
  let req := originalDirector req
  if strings.HasPrefix req.URL.Path (str "/api/oidc/authorization") then
    let query := req.URL.Query
    let scope := query.Get (str "scope")
    if scope ≠ [] then
      if !strings.Contains scope groupsScope then
        let query := query.Set (str "scope") (scope ++ str " " ++ groupsScope)
        { req with URL := { req.URL with RawQuery := query.Encode } }
      else req
    else req
  else req


/-- The request `req` with its raw query replaced by `q`. -/
def withRawQuery (req : http.Request) (q : GoString) : http.Request :=
  { req with URL := { req.URL with RawQuery := q } }

/-- The outbound raw query after the request has gone through the Director `n` times,
each pass taking the raw query the previous pass produced. -/
def rewriteTimes (req : http.Request) : Nat → GoString
  | 0 => req.URL.RawQuery
  | n + 1 => (Director (withRawQuery req (rewriteTimes req n))).URL.RawQuery

/-- The scope value of a raw query: `Query().Get("scope")`. -/
def scopeOf (q : GoString) : GoString := (url.ParseQuery q).1.Get (str "scope")

/-- ASCII white space, as `strings.Fields` takes it: tab, newline, vertical tab,
form feed, carriage return, space. -/
def isSpace (c : Byte) : Bool :=
  c = ch '\t' || c = ch '\n' || c = 11 || c = 12 || c = ch '\r' || c = ch ' '

/-- The tokens of `s` after the last white space seen, `cur` being the token read so far. -/
def tokensFrom (cur : GoString) : GoString → List GoString
  | [] => if cur = [] then [] else [cur]
  | c :: s =>
    if isSpace c then (if cur = [] then tokensFrom [] s else cur :: tokensFrom [] s)
    else tokensFrom (cur ++ [c]) s

/-- The whitespace-delimited tokens of a scope value, the specification's reading of
`scope` as a space-separated set of tokens. -/
def scopeTokens (s : GoString) : List GoString := tokensFrom [] s

end main

/-! ## package path -/

namespace path

/-- One path element in `path.Clean`: an empty element and `.` are dropped, `..` removes
the element before it (in a rooted path it is dropped at the root, in another path it
is kept when only `..` elements precede it), any other element is kept. `st` is the
list of elements written and the number of leading `..` among them. -/
def cleanStep (rooted : Bool) (st : List GoString × Nat) (elem : GoString) :
    List GoString × Nat :=
  if elem = [] ∨ elem = str "." then st
  else if elem = str ".." then
    if st.1.length > st.2 then (st.1.dropLast, st.2)
    else if !rooted then (st.1 ++ [elem], st.1.length + 1)
    else st
  else (st.1 ++ [elem], st.2)

/-- Go function `path.Clean`: the shortest path equivalent to `p` by lexical processing. -/
def Clean (p : GoString) : GoString :=
  if p = [] then str "."
  else
    let rooted : Bool := p.head? = some (ch '/')
    let out := ((strings.Split p (ch '/')).foldl (cleanStep rooted) ([], 0)).1
    let s := (if rooted then str "/" else []) ++ (str "/").intercalate out
    if s = [] then str "." else s

end path

/-! ## package net/http: the response writer, routing and the server -/

namespace http

/-- What the server has sent to the client for one request (status and body bytes),
together with the method of the request. -/
structure ResponseWriter where
  reqMethod : GoString
  wroteHeader : Bool
  status : Nat
  body : GoString
  deriving DecidableEq, Repr

/-- Go function `ResponseWriter.WriteHeader` for a status code from 100 to 999: the
first call with a final status fixes the status code; an informational status
(1xx other than 101) is sent at once and leaves the final status open. -/
def ResponseWriter.WriteHeader (w : ResponseWriter) (statusCode : Nat) : ResponseWriter :=
  if w.wroteHeader then w
  else if 100 ≤ statusCode ∧ statusCode ≤ 199 ∧ statusCode ≠ 101 then w
  else { w with wroteHeader := true, status := statusCode }

/-- Go function `http.bodyAllowedForStatus`. -/
def bodyAllowedForStatus (status : Nat) : Bool :=
  if 100 ≤ status ∧ status ≤ 199 then false
  else if status = 204 then false
  else if status = 304 then false
  else true

/-- Go function `ResponseWriter.Write`: writes the header with status 200 if none was
written; the data is sent unless the status allows no body or the request is a `HEAD`
request, for which the server sends no body bytes. -/
def ResponseWriter.Write (w : ResponseWriter) (data : GoString) : ResponseWriter :=
  let w := if w.wroteHeader then w else w.WriteHeader 200
  if data = [] then w
  else if !bodyAllowedForStatus w.status then w
  else if w.reqMethod = str "HEAD" then w
  else { w with body := w.body ++ data }

/-- The end of a request in the server (`finishRequest`): a handler that wrote no
header has answered with status 200. -/
def ResponseWriter.finishRequest (w : ResponseWriter) : ResponseWriter :=
  if w.wroteHeader then w else w.WriteHeader 200

def StatusOK : Nat := 200

/-- The handlers the server can run: the two that `main` registers, and those of
`net/http` itself: `NotFound`, a redirect to the URL with the given path and raw
query, the answer 400 of the multiplexer to the request target `*`, and the server's
handler of `OPTIONS *`. -/
inductive Handler where
  | healthz
  | proxy
  | notFound
  | redirect (Path RawQuery : GoString)
  | badRequest
  | globalOptions
  deriving DecidableEq, Repr

/-- Go type `http.segment`: a literal (`s`), or the multi wildcard a trailing slash
stands for. -/
structure segment where
  s : GoString
  wild : Bool
  multi : Bool
  deriving DecidableEq, Repr

/-- Go function `http.pathUnescape`: `url.PathUnescape`, or the string itself if that fails. -/
def pathUnescape (p : GoString) : GoString :=
  match url.PathUnescape p with
  | .ok u => u
  | .error _ => p

/-- The segments of the pieces of a pattern path: literals, and a multi wildcard
for the empty last piece of a trailing slash. -/
def patternSegments : List GoString → List segment
  | [] => []
  | [last] =>
    if last = [] then [{ s := [], wild := true, multi := true }]
    else [{ s := pathUnescape last, wild := false, multi := false }]
  | piece :: rest => { s := pathUnescape piece, wild := false, multi := false } ::
      patternSegments rest

/-- Go type `http.pattern` for a pattern that is a path starting with `/`, without
method, host or named wildcard (`parsePattern` on such a string). -/
structure pattern where
  str : GoString
  segments : List segment
  deriving DecidableEq, Repr

/-- Go function `http.parsePattern` on a path starting with `/`. -/
def parsePattern (s : GoString) : pattern :=
  { str := s, segments := patternSegments (strings.Split (s.drop 1) (ch '/')) }

/-- Go method `pattern.lastSegment`, asked whether it is a multi wildcard. -/
def pattern.lastMulti (p : pattern) : Bool :=
  match p.segments.getLast? with
  | some seg => seg.multi
  | none => false

/-- The literal segments of a pattern. -/
def pattern.literals (p : pattern) : List GoString :=
  (p.segments.filter (fun seg => !seg.multi)).map (fun seg => seg.s)

/-- Go type `http.ServeMux`: the registered patterns with their handlers. -/
structure ServeMux where
  patterns : List (pattern × Handler)
  deriving DecidableEq, Repr

/-- Go function `ServeMux.Handle`: registers the handler for the pattern. -/
def ServeMux.Handle (mux : ServeMux) (pat : GoString) (handler : Handler) : ServeMux :=
  { patterns := mux.patterns ++ [(parsePattern pat, handler)] }

/-- The segments the routing tree reads off a request path by `firstSegment`, one
after the other: the unescaped pieces between the slashes, and `/` for a trailing
slash. -/
def pathSegments (path : GoString) : List GoString :=
  if path = [] then []
  else
    let pieces := strings.Split (path.drop 1) (ch '/')
    (pieces.dropLast.map pathUnescape) ++
      (match pieces.getLast? with
       | some [] => [str "/"]
       | some last => [pathUnescape last]
       | none => [])

/-- Whether the pattern matches a path with the segments `segs`: a pattern without
trailing slash matches its own segments; one with a trailing slash matches what
starts with its literal segments and goes on. -/
def pattern.matches (p : pattern) (segs : List GoString) : Bool :=
  if p.lastMulti then
    p.literals.isPrefixOf segs && decide (p.literals.length < segs.length)
  else p.literals == segs

/-- What `routingNode.match` finds for patterns as above: the matching pattern with
the most literal segments (the tree tries a literal child before the multi wildcard
of a node). -/
def ServeMux.matchSegments (mux : ServeMux) (segs : List GoString) :
    Option (pattern × Handler) :=
  mux.patterns.foldl
    (fun best e =>
      if e.1.matches segs then
        match best with
        | none => some e
        | some b => if b.1.literals.length < e.1.literals.length then some e else some b
      else best)
    none

/-- Go method `routingNode.match` on a path: the pattern and handler found, if any. -/
def ServeMux.«match» (mux : ServeMux) (path : GoString) : Option (pattern × Handler) :=
  mux.matchSegments (pathSegments path)

/-- Go function `http.exactMatch`: whether the pattern found matches the path exactly. -/
def exactMatch (n : Option (pattern × Handler)) (path : GoString) : Bool :=
  match n with
  | none => false
  | some e =>
    if !e.1.lastMulti then true
    else if path.length > 0 ∧ path.getLast? ≠ some (ch '/') then false
    else e.1.segments.length == strings.Count path (ch '/')

/-- Go function `http.cleanPath`: the canonical path for `p`, without `.` and `..`
elements and repeated slashes, a trailing slash kept. -/
def cleanPath (p : GoString) : GoString :=
  if p = [] then str "/"
  else
    let p := if p.head? ≠ some (ch '/') then str "/" ++ p else p
    let np := path.Clean p
    if p.getLast? = some (ch '/') ∧ np ≠ str "/" then
      if p.length = np.length + 1 ∧ strings.HasPrefix p np then p else np ++ str "/"
    else np

/-- Go method `ServeMux.matchOrRedirect`: the match for the path, or, if the path has
no exact match but the path with a slash added has one and `u` is given, the URL to
redirect to. -/
def ServeMux.matchOrRedirect (mux : ServeMux) (path : GoString) (u : Option url.URL) :
    Option (pattern × Handler) × Option (GoString × GoString) :=
  let n := mux.«match» path
  match u with
  | some u =>
    if !exactMatch n path && !strings.HasSuffix path (str "/") then
      if exactMatch (mux.«match» (path ++ str "/")) (path ++ str "/") then
        (none, some (cleanPath u.Path ++ str "/", u.RawQuery))
      else (n, none)
    else (n, none)
  | none => (n, none)

/-- Go method `ServeMux.findHandler` without hosts and methods in the patterns: a
`CONNECT` request is matched on its escaped path as it is; any other request on its
cleaned escaped path, and is redirected to that path if cleaning changed it. -/
def ServeMux.findHandler (mux : ServeMux) (r : Request) : Handler :=
  let escapedPath := r.URL.EscapedPath
  if r.Method = str "CONNECT" then
    match mux.matchOrRedirect escapedPath (some r.URL) with
    | (_, some u) => .redirect u.1 u.2
    | (_, none) =>
      match (mux.matchOrRedirect escapedPath none).1 with
      | some e => e.2
      | none => .notFound
  else
    let path := cleanPath escapedPath
    match mux.matchOrRedirect path (some r.URL) with
    | (_, some u) => .redirect u.1 u.2
    | (n, none) =>
      if path ≠ escapedPath then .redirect path r.URL.RawQuery
      else
        match n with
        | some e => e.2
        | none => .notFound

/-- The handler that serves a request the server has read: `serverHandler.ServeHTTP`
gives `OPTIONS *` to its own handler, `ServeMux.ServeHTTP` answers any other request
for the target `*` with 400 and otherwise runs the handler it finds. -/
def serverHandler (mux : ServeMux) (r : Request) : Handler :=
  if r.RequestURI = str "*" ∧ r.Method = str "OPTIONS" then .globalOptions
  else if r.RequestURI = str "*" then .badRequest
  else mux.findHandler r

end http

namespace main

/-- The `http.DefaultServeMux` after `http.HandleFunc("/healthz", ...)` and
`http.Handle("/", proxy)`. -/
def mux : http.ServeMux :=
  (({ patterns := [] } : http.ServeMux).Handle (str "/healthz") .healthz).Handle
    (str "/") .proxy

/-- The health check handler: `w.WriteHeader(http.StatusOK); w.Write([]byte("OK"))`. -/
def healthz (w : http.ResponseWriter) (_r : http.Request) : http.ResponseWriter :=
  (w.WriteHeader http.StatusOK).Write (str "OK")

/-- The outcome of serving one request: what the server sent to the client and the
requests that were sent to the upstream. -/
structure Served where
  response : http.ResponseWriter
  forwarded : List http.Request
  deriving DecidableEq, Repr

/-- The server on one request that it has read from a connection: the handler is
selected as in `http.serverHandler` and run on a fresh response writer. The health
handler is the closure of `main`; the other handlers are those of the library (the
reverse proxy among them), taken as the parameter `lib`. -/
def serve (lib : http.Handler → http.ResponseWriter → http.Request → Served)
    (r : http.Request) : Served :=
  let w : http.ResponseWriter :=
    { reqMethod := r.Method, wroteHeader := false, status := 0, body := [] }
  match http.serverHandler mux r with
  | .healthz => { response := (healthz w r).finishRequest, forwarded := [] }
  | h => lib h w r

end main

namespace http

/-- The request URLs that `net/http` hands to a handler. The server parses the request
target with `url.ParseRequestURI`, which yields the path `*`, an empty path (authority
and opaque forms) or a path starting with `/`; a raw path is recorded only next to a
path starting with `/` and starts with `/` as well. -/
def servedURL (u : url.URL) : Bool :=
  (u.Path == str "*" && u.RawPath == []) || (u.Path == [] && u.RawPath == []) ||
    (strings.HasPrefix u.Path (str "/") &&
      (u.RawPath == [] || strings.HasPrefix u.RawPath (str "/")))

end http

namespace main

/-- The query rewrite of the Director for a request that has path `path` and raw
query `q` after the original director: the raw query the Director leaves. -/
def rewriteQuery (path q : GoString) : GoString :=
  if strings.HasPrefix path (str "/api/oidc/authorization") then
    if scopeOf q ≠ [] then
      if !strings.Contains (scopeOf q) groupsScope then
        ((url.ParseQuery q).1.Set (str "scope") (scopeOf q ++ str " " ++ groupsScope)).Encode
      else q
    else q
  else q

/-- A `GET` request for `path` with raw query `query`, as the server hands it over. -/
def exampleRequest (path query : GoString) : http.Request :=
  { Method := str "GET"
    RequestURI := if query = [] then path else path ++ str "?" ++ query
    URL := { Scheme := [], Host := [], Path := path, RawPath := [], RawQuery := query }
    Header := []
    Body := []
    RemoteAddr := str "10.42.0.17:51234" }

/-- The request `HEAD /healthz`. -/
def headHealthz : http.Request :=
  { exampleRequest (str "/healthz") [] with Method := str "HEAD" }

/-- The request `POST /healthz?scope=openid` with a header and a body. -/
def postHealthz : http.Request :=
  { exampleRequest (str "/healthz") (str "scope=openid") with
    Method := str "POST"
    Header := [(str "Accept", [str "*/*"])]
    Body := str "ping" }

end main

/-! ## Auxiliary definitions of the proofs -/

namespace url

/-- A byte that is none of the separators `&`, `=`, `;` of a query string. -/
def plainByte (c : Byte) : Prop := c ≠ ch '&' ∧ c ≠ ch '=' ∧ c ≠ ch ';'

instance (c : Byte) : Decidable (plainByte c) := by unfold plainByte; infer_instance

/-- The shape of a Go map built by appending values: every key once, no key with an
empty slice. -/
def Values.WF (m : Values) : Prop := m.keys.Nodup ∧ ∀ key ∈ m.keys, Values.lookup m key ≠ []

instance (m : Values) : Decidable (Values.WF m) := by unfold Values.WF; infer_instance

/-- The number of values in the map, over all keys. -/
def Values.total (m : Values) : Nat := (m.map (fun e => e.2.length)).sum

/-- The loop of `parseQuery` started in state `st` on `q`, with the fuel `ParseQuery` gives it. -/
def parseFrom (st : Values × Option Error) (q : GoString) : Values × Option Error :=
  parseQueryLoop q.length st q

/-- One encoded pair: escaped key, `=`, escaped value. -/
def pairStr (p : GoString × GoString) : GoString :=
  QueryEscape p.1 ++ [ch '='] ++ QueryEscape p.2

/-- The encoded pairs, each preceded by `&`. -/
def tailStr : List (GoString × GoString) → GoString
  | [] => []
  | p :: ps => ch '&' :: pairStr p ++ tailStr ps

/-- The buffer of `Values.Encode` after writing the pairs `ps`. -/
def encodePairs (buf : GoString) (ps : List (GoString × GoString)) : GoString :=
  ps.foldl (fun buf p => Values.writePair (QueryEscape p.1) buf p.2) buf

/-- The pairs of the map in the order `Values.Encode` writes them, for the keys `ks`. -/
def pairsOf (v : Values) : List GoString → List (GoString × GoString)
  | [] => []
  | k :: ks => (v.lookup k).map (fun x => (k, x)) ++ pairsOf v ks

/-- The effect of a well-formed pair on the state of the parsing loop. -/
def addPair (st : Values × Option Error) (p : GoString × GoString) : Values × Option Error :=
  (st.1.store p.1 (st.1.lookup p.1 ++ [p.2]), st.2)

end url

/-! ## Lemmas: package strings -/

namespace strings

theorem HasPrefix_iff (s pre : GoString) : HasPrefix s pre = true ↔ pre <+: s := by
  unfold HasPrefix
  constructor
  · intro h
    simp only [ge_iff_le, Bool.and_eq_true, decide_eq_true_eq, beq_iff_eq] at h
    exact h.2 ▸ List.take_prefix _ _
  · rintro ⟨t, rfl⟩
    simp

theorem HasPrefix_single (c b : Byte) (s : GoString) :
    HasPrefix (c :: s) [b] = (c == b) := by
  simp [HasPrefix]

theorem Index_single_not_mem (b : Byte) (s : GoString) (h : b ∉ s) : Index s [b] = none := by
  induction s with
  | nil => simp [Index]
  | cons c s ih =>
    simp only [List.mem_cons, not_or] at h
    simp [Index, HasPrefix_single, Ne.symm h.1, ih h.2]

theorem Index_single_append (b : Byte) (a r : GoString) (h : b ∉ a) :
    Index (a ++ b :: r) [b] = some a.length := by
  induction a with
  | nil => simp [Index, HasPrefix_single]
  | cons c a ih =>
    simp only [List.mem_cons, not_or] at h
    simp [Index, HasPrefix_single, Ne.symm h.1, ih h.2]

theorem Cut_single_not_mem (b : Byte) (s : GoString) (h : b ∉ s) :
    Cut s [b] = (s, [], false) := by
  simp [Cut, Index_single_not_mem b s h]

theorem Cut_single_append (b : Byte) (a r : GoString) (h : b ∉ a) :
    Cut (a ++ b :: r) [b] = (a, r, true) := by
  simp [Cut, Index_single_append b a r h]

theorem Contains_single (b : Byte) (s : GoString) : Contains s [b] = true ↔ b ∈ s := by
  induction s with
  | nil => simp [Contains, Index]
  | cons c s ih =>
    unfold Contains at ih ⊢
    by_cases hc : c = b
    · simp [Index, HasPrefix_single, hc]
    · simp [Index, HasPrefix_single, hc, ih, Ne.symm hc]

theorem Contains_iff (s sub : GoString) : Contains s sub = true ↔ sub <:+: s := by
  induction s with
  | nil =>
    cases sub <;> simp [Contains, Index]
  | cons c s ih =>
    unfold Contains at ih ⊢
    rw [List.infix_cons_iff]
    by_cases hp : HasPrefix (c :: s) sub = true
    · simp [Index, hp, (HasPrefix_iff _ _).1 hp]
    · have hp2 : ¬ sub <+: c :: s := fun h => hp ((HasPrefix_iff _ _).2 h)
      simp [Index, hp, hp2, ih]

end strings

/-! ## Lemmas: escaping and unescaping -/

namespace url

theorem unescape_percent (a b : Byte) (rest : GoString) (mode : encoding)
    (ha : ishex a = true) (hb : ishex b = true) :
    unescape (ch '%' :: a :: b :: rest) mode =
      match unescape rest mode with
      | .ok t => .ok ((unhex a <<< 4 ||| unhex b) :: t)
      | .error e => .error e := by
  rw [unescape]
  simp [ha, hb]

theorem unescape_cons (c : Byte) (s : GoString) (mode : encoding) (hc : c ≠ ch '%') :
    unescape (c :: s) mode =
      match unescape s mode with
      | .ok t => .ok ((if c = ch '+' && mode = .encodeQueryComponent then ch ' ' else c) :: t)
      | .error e => .error e := by
  rcases s with _ | ⟨a, _ | ⟨b, rest⟩⟩ <;> simp [unescape, hc]

set_option maxRecDepth 100000 in
theorem unescaped_byte : ∀ c : Byte, shouldEscape c .encodeQueryComponent = false →
    c ≠ ch '%' ∧ c ≠ ch '+' ∧ plainByte c := by decide

set_option maxRecDepth 100000 in
theorem hex_byte : ∀ c : Byte,
    ishex (upperhex.getD (c.val >>> 4) 0) = true ∧ ishex (upperhex.getD (c.val &&& 15) 0) = true ∧
    unhex (upperhex.getD (c.val >>> 4) 0) <<< 4 ||| unhex (upperhex.getD (c.val &&& 15) 0) = c ∧
    plainByte (upperhex.getD (c.val >>> 4) 0) ∧ plainByte (upperhex.getD (c.val &&& 15) 0) := by
  decide

theorem plainByte_percent : plainByte (ch '%') := by decide

theorem plainByte_plus : plainByte (ch '+') := by decide

theorem escape_cons_query (c : Byte) (s : GoString) :
    escape (c :: s) .encodeQueryComponent =
      (if shouldEscape c .encodeQueryComponent = false then [c]
       else if c = ch ' ' then [ch '+']
       else [ch '%', upperhex.getD (c.val >>> 4) 0, upperhex.getD (c.val &&& 15) 0])
      ++ escape s .encodeQueryComponent := by
  rw [escape]
  by_cases h : shouldEscape c .encodeQueryComponent = true <;>
    by_cases hsp : c = ch ' ' <;> simp [h, hsp, -List.getD_eq_getElem?_getD]

theorem QueryUnescape_QueryEscape (s : GoString) : QueryUnescape (QueryEscape s) = .ok s := by
  unfold QueryUnescape QueryEscape
  induction s with
  | nil => rfl
  | cons c s ih =>
    rw [escape_cons_query]
    by_cases h : shouldEscape c .encodeQueryComponent = false
    · obtain ⟨h1, h2, -⟩ := unescaped_byte c h
      rw [if_pos h, List.singleton_append, unescape_cons _ _ _ h1, ih]
      simp [h2]
    · rw [if_neg h]
      by_cases hsp : c = ch ' '
      · rw [if_pos hsp, List.singleton_append, unescape_cons _ _ _ (by decide), ih, hsp]
        simp
      · obtain ⟨hh, hl, hv, -, -⟩ := hex_byte c
        rw [if_neg hsp]
        show unescape (ch '%' :: _ :: _ :: escape s _) _ = _
        rw [unescape_percent _ _ _ _ hh hl, ih, hv]

theorem QueryEscape_plain (s : GoString) : ∀ c ∈ QueryEscape s, plainByte c := by
  unfold QueryEscape
  induction s with
  | nil => simp [escape]
  | cons c s ih =>
    intro x hx
    rw [escape_cons_query, List.mem_append] at hx
    rcases hx with hx | hx
    · by_cases h : shouldEscape c .encodeQueryComponent = false
      · rw [if_pos h, List.mem_singleton] at hx
        exact hx ▸ (unescaped_byte c h).2.2
      · rw [if_neg h] at hx
        by_cases hsp : c = ch ' '
        · rw [if_pos hsp, List.mem_singleton] at hx
          exact hx ▸ plainByte_plus
        · obtain ⟨-, -, -, p1, p2⟩ := hex_byte c
          rw [if_neg hsp] at hx
          simp only [List.mem_cons, List.mem_singleton, List.not_mem_nil, or_false] at hx
          rcases hx with rfl | rfl | rfl
          · exact plainByte_percent
          · exact p1
          · exact p2
    · exact ih x hx

end url

/-! ## Lemmas: the map of values -/

namespace url

namespace Values

theorem lookup_store (m : Values) (k key : GoString) (vs : List GoString) :
    lookup (store m k vs) key = if k = key then vs else lookup m key := by
  induction m with
  | nil => simp [store, lookup]
  | cons e m ih =>
    obtain ⟨k1, ws⟩ := e
    by_cases h1 : k1 = k
    · subst h1
      by_cases h2 : k1 = key <;> simp [store, lookup, h2]
    · by_cases h2 : k1 = key
      · subst h2
        simp [store, lookup, h1, Ne.symm h1]
      · simp [store, lookup, h1, h2, ih]

theorem lookup_eq_nil_of_not_mem (m : Values) (key : GoString) (h : key ∉ m.keys) :
    lookup m key = [] := by
  induction m with
  | nil => rfl
  | cons e m ih =>
    obtain ⟨k1, ws⟩ := e
    simp only [keys, List.map_cons, List.mem_cons, not_or] at h
    simp only [lookup, Ne.symm h.1, if_false]
    exact ih h.2

theorem keys_store (m : Values) (k : GoString) (vs : List GoString) :
    keys (store m k vs) = if k ∈ keys m then keys m else keys m ++ [k] := by
  induction m with
  | nil => simp [store, keys]
  | cons e m ih =>
    obtain ⟨k1, ws⟩ := e
    by_cases h1 : k1 = k
    · subst h1
      simp [store, keys]
    · have ih2 : List.map Prod.fst (store m k vs) =
          if k ∈ List.map Prod.fst m then List.map Prod.fst m else List.map Prod.fst m ++ [k] := ih
      by_cases h2 : k ∈ List.map Prod.fst m
      · simp only [store, keys, h1, if_false, List.map_cons, ih2, if_pos h2, List.mem_cons, h2,
          or_true, if_true]
      · have h3 : ¬ (k = k1 ∨ k ∈ List.map Prod.fst m) := by
          rintro (h | h)
          · exact h1 h.symm
          · exact h2 h
        simp only [store, keys, h1, if_false, List.map_cons, ih2, if_neg h2, List.mem_cons,
          if_neg h3, List.cons_append]

theorem WF_nil : WF [] := by
  constructor
  · simp [keys]
  · intro key h
    simp [keys] at h

theorem WF_store (m : Values) (k : GoString) (vs : List GoString) (hm : WF m) (hvs : vs ≠ []) :
    WF (store m k vs) := by
  obtain ⟨hn, hl⟩ := hm
  constructor
  · rw [keys_store]
    by_cases h : k ∈ keys m
    · rw [if_pos h]
      exact hn
    · rw [if_neg h]
      exact List.Nodup.append hn (List.nodup_singleton k) (by simpa using h)
  · intro key hkey
    rw [lookup_store]
    by_cases h1 : k = key
    · rw [if_pos h1]
      exact hvs
    · rw [if_neg h1]
      apply hl
      rw [keys_store] at hkey
      by_cases h : k ∈ keys m
      · rwa [if_pos h] at hkey
      · rw [if_neg h, List.mem_append, List.mem_singleton] at hkey
        rcases hkey with hkey | hkey
        · exact hkey
        · exact absurd hkey.symm h1

theorem mem_keys_iff (m : Values) (hm : WF m) (key : GoString) :
    key ∈ m.keys ↔ lookup m key ≠ [] := by
  constructor
  · exact hm.2 key
  · intro h
    by_contra hc
    exact h (lookup_eq_nil_of_not_mem m key hc)

end Values

/-! ## Lemmas: the parsing loop -/

theorem Cut_rest_length (q : GoString) (b : Byte) (hq : q ≠ []) :
    (strings.Cut q [b]).2.1.length < q.length := by
  have hpos : 0 < q.length := List.length_pos.2 hq
  unfold strings.Cut
  cases strings.Index q [b] with
  | none => simpa using hpos
  | some i =>
    simp only [List.length_drop, List.length_singleton]
    omega

theorem parseQueryLoop_nil (n : Nat) (st : Values × Option Error) :
    parseQueryLoop n st [] = st := by
  cases n <;> simp [parseQueryLoop]

theorem parseQueryLoop_fuel (n : Nat) : ∀ (m : Nat) (st : Values × Option Error) (q : GoString),
    q.length ≤ n → q.length ≤ m → parseQueryLoop n st q = parseQueryLoop m st q := by
  induction n with
  | zero =>
    intro m st q hn _
    have hq : q = [] := List.length_eq_zero.1 (Nat.le_zero.1 hn)
    subst hq
    rw [parseQueryLoop_nil, parseQueryLoop_nil]
  | succ n ih =>
    intro m st q hn hm
    by_cases hq : q = []
    · subst hq
      rw [parseQueryLoop_nil, parseQueryLoop_nil]
    · have hlen := Cut_rest_length q (ch '&') hq
      have hpos : 0 < q.length := List.length_pos.2 hq
      obtain ⟨m1, rfl⟩ : ∃ m1, m = m1 + 1 := ⟨m - 1, by omega⟩
      have hs : str "&" = [ch '&'] := rfl
      simp only [parseQueryLoop, hq, if_false, hs]
      exact ih m1 _ _ (Nat.le_of_lt_succ (lt_of_lt_of_le hlen hn))
        (Nat.le_of_lt_succ (lt_of_lt_of_le hlen hm))

theorem ParseQuery_eq (q : GoString) :
    ParseQuery q =
      if !urlParamsWithinMax (strings.Count q (ch '&') + 1) then ([], some .tooManyParams)
      else parseFrom ([], none) q := rfl

theorem ParseQuery_of_within (q : GoString)
    (h : strings.Count q (ch '&') + 1 ≤ defaultMaxParams) :
    ParseQuery q = parseFrom ([], none) q := by
  rw [ParseQuery_eq]
  simp [urlParamsWithinMax, h]

theorem ParseQuery_of_beyond (q : GoString)
    (h : defaultMaxParams < strings.Count q (ch '&') + 1) :
    ParseQuery q = ([], some .tooManyParams) := by
  rw [ParseQuery_eq]
  simp [urlParamsWithinMax, Nat.not_le.2 h]

theorem parseFrom_nil (st : Values × Option Error) : parseFrom st [] = st := rfl

theorem parseFrom_cons (st : Values × Option Error) (q : GoString) (hq : q ≠ []) :
    parseFrom st q =
      parseFrom (parsePair st (strings.Cut q [ch '&']).1) (strings.Cut q [ch '&']).2.1 := by
  have hlen := Cut_rest_length q (ch '&') hq
  obtain ⟨n, hn⟩ : ∃ n, q.length = n + 1 := ⟨q.length - 1, by
    have := List.length_pos.2 hq
    omega⟩
  have hs : str "&" = [ch '&'] := rfl
  unfold parseFrom
  rw [hn]
  simp only [parseQueryLoop, hq, if_false, hs]
  exact parseQueryLoop_fuel n _ _ _ (Nat.le_of_lt_succ (lt_of_lt_of_le hlen (le_of_eq hn)))
    (le_refl _)

theorem parsePair_nil (st : Values × Option Error) : parsePair st [] = st := by
  obtain ⟨m, err⟩ := st
  have h : strings.Contains [] (str ";") = false := by decide
  simp [parsePair, h]

theorem parseFrom_last (st : Values × Option Error) (seg : GoString) (h : ch '&' ∉ seg) :
    parseFrom st seg = parsePair st seg := by
  by_cases hs : seg = []
  · subst hs
    rw [parseFrom_nil, parsePair_nil]
  · rw [parseFrom_cons st seg hs, strings.Cut_single_not_mem _ _ h, parseFrom_nil]

theorem parseFrom_append (st : Values × Option Error) (seg rest : GoString) (h : ch '&' ∉ seg) :
    parseFrom st (seg ++ ch '&' :: rest) = parseFrom (parsePair st seg) rest := by
  rw [parseFrom_cons st _ (by simp), strings.Cut_single_append _ _ _ h]


/-! ## Lemmas: the number of values -/

theorem Values.total_store (m : Values) (k : GoString) (vs : List GoString) :
    Values.total (Values.store m k vs) + (Values.lookup m k).length =
      Values.total m + vs.length := by
  induction m with
  | nil => simp [Values.store, Values.lookup, Values.total]
  | cons e m ih =>
    obtain ⟨k1, ws⟩ := e
    by_cases h : k1 = k
    · simp only [Values.store, Values.lookup, h, if_true, Values.total, List.map_cons,
        List.sum_cons]
      omega
    · have ih2 : (List.map (fun e => e.2.length) (Values.store m k vs)).sum +
          (Values.lookup m k).length = (List.map (fun e => e.2.length) m).sum + vs.length := ih
      simp only [Values.store, Values.lookup, h, if_false, Values.total, List.map_cons,
        List.sum_cons]
      omega

theorem parsePair_total (st : Values × Option Error) (key : GoString) :
    Values.total (parsePair st key).1 ≤ Values.total st.1 + 1 := by
  obtain ⟨m, err⟩ := st
  unfold parsePair
  simp only
  repeat' split
  all_goals first
    | exact Nat.le_succ _
    | (rename_i k _ _ v _
       have h := Values.total_store m k (Values.lookup m k ++ [v])
       simp only [List.length_append, List.length_singleton] at h
       show Values.total (Values.store m k (Values.lookup m k ++ [v])) ≤ Values.total m + 1
       omega)

theorem Cut_single_cases (b : Byte) (s : GoString) :
    (b ∉ s ∧ strings.Cut s [b] = (s, [], false)) ∨
      ∃ a r, s = a ++ b :: r ∧ b ∉ a ∧ strings.Cut s [b] = (a, r, true) := by
  by_cases h : b ∈ s
  · obtain ⟨a, r, hs, ha⟩ := List.eq_append_cons_of_mem h
    exact Or.inr ⟨a, r, hs, ha, hs ▸ strings.Cut_single_append b a r ha⟩
  · exact Or.inl ⟨h, strings.Cut_single_not_mem b s h⟩

theorem parseQueryLoop_succ (n : Nat) (st : Values × Option Error) (q : GoString)
    (hq : q ≠ []) :
    parseQueryLoop (n + 1) st q =
      parseQueryLoop n (parsePair st (strings.Cut q [ch '&']).1) (strings.Cut q [ch '&']).2.1 := by
  have hs : str "&" = [ch '&'] := rfl
  simp only [parseQueryLoop, hq, if_false, hs]

theorem parseQueryLoop_total (n : Nat) : ∀ (st : Values × Option Error) (q : GoString),
    Values.total (parseQueryLoop n st q).1 ≤
      Values.total st.1 + (if q = [] then 0 else strings.Count q (ch '&') + 1) := by
  induction n with
  | zero =>
    intro st q
    exact Nat.le_add_right _ _
  | succ n ih =>
    intro st q
    by_cases hq : q = []
    · subst hq
      rw [parseQueryLoop_nil]
      exact Nat.le_add_right _ _
    · rw [parseQueryLoop_succ n st q hq, if_neg hq]
      rcases Cut_single_cases (ch '&') q with ⟨-, hcut⟩ | ⟨a, r, hs, ha, hcut⟩
      · rw [hcut, parseQueryLoop_nil]
        dsimp only
        have := parsePair_total st q
        omega
      · rw [hcut]
        dsimp only
        have h1 := ih (parsePair st a) r
        have h2 := parsePair_total st a
        have h3 : strings.Count q (ch '&') = strings.Count r (ch '&') + 1 := by
          rw [hs]
          unfold strings.Count
          rw [List.count_append, List.count_cons_self, List.count_eq_zero.2 ha]
          omega
        simp only at h1
        split at h1 <;> omega

theorem ParseQuery_total (q : GoString) :
    Values.total (ParseQuery q).1 ≤ defaultMaxParams := by
  by_cases h : strings.Count q (ch '&') + 1 ≤ defaultMaxParams
  · rw [ParseQuery_of_within q h]
    have := parseQueryLoop_total q.length ([], none) q
    have h0 : Values.total ([] : Values) = 0 := rfl
    unfold parseFrom
    simp only [h0] at this
    split at this <;> omega
  · rw [ParseQuery_of_beyond q (Nat.not_le.1 h)]
    exact Nat.zero_le _

theorem Values.total_Set_le (m : Values) (k value : GoString)
    (h : Values.lookup m k ≠ []) : Values.total (Values.Set m k value) ≤ Values.total m := by
  have h1 := Values.total_store m k [value]
  have h2 : 0 < (Values.lookup m k).length := List.length_pos.2 h
  unfold Values.Set
  simp only [List.length_singleton] at h1
  omega

end url

/-! ## Lemmas: encoding a map and parsing it back -/

namespace url

theorem pairStr_ne_nil (p : GoString × GoString) : pairStr p ≠ [] := by
  simp [pairStr]

theorem pairStr_plain (p : GoString × GoString) (c : Byte) (hc : c ∈ pairStr p) :
    c ≠ ch '&' ∧ c ≠ ch ';' := by
  simp only [pairStr, List.mem_append, List.mem_singleton] at hc
  rcases hc with (hc | hc) | hc
  · exact ⟨(QueryEscape_plain _ c hc).1, (QueryEscape_plain _ c hc).2.2⟩
  · subst hc
    decide
  · exact ⟨(QueryEscape_plain _ c hc).1, (QueryEscape_plain _ c hc).2.2⟩

theorem amp_not_mem_pairStr (p : GoString × GoString) : ch '&' ∉ pairStr p :=
  fun h => (pairStr_plain p _ h).1 rfl

theorem writePair_eq (buf : GoString) (p : GoString × GoString) :
    Values.writePair (QueryEscape p.1) buf p.2 =
      if buf = [] then pairStr p else buf ++ ch '&' :: pairStr p := by
  unfold Values.writePair pairStr
  by_cases h : buf = []
  · subst h
    simp
  · have hpos : 0 < buf.length := List.length_pos.2 h
    simp [h, hpos]

theorem encodePairs_of_ne_nil (ps : List (GoString × GoString)) :
    ∀ buf : GoString, buf ≠ [] → encodePairs buf ps = buf ++ tailStr ps := by
  induction ps with
  | nil => intro buf _; simp [encodePairs, tailStr]
  | cons p ps ih =>
    intro buf hbuf
    have h := ih (buf ++ ch '&' :: pairStr p) (by simp)
    unfold encodePairs at h ⊢
    rw [List.foldl_cons, writePair_eq, if_neg hbuf, h]
    simp [tailStr]

theorem encodePairs_nil_cons (p : GoString × GoString) (ps : List (GoString × GoString)) :
    encodePairs [] (p :: ps) = pairStr p ++ tailStr ps := by
  have h := encodePairs_of_ne_nil ps (pairStr p) (pairStr_ne_nil p)
  unfold encodePairs at h ⊢
  rw [List.foldl_cons, writePair_eq, if_pos rfl, h]

theorem foldl_keys_eq (v : Values) (ks : List GoString) : ∀ buf : GoString,
    ks.foldl (fun buf k => (v.lookup k).foldl (Values.writePair (QueryEscape k)) buf) buf =
      encodePairs buf (pairsOf v ks) := by
  induction ks with
  | nil => intro buf; rfl
  | cons k ks ih =>
    intro buf
    rw [List.foldl_cons, ih]
    unfold encodePairs
    rw [pairsOf, List.foldl_append, List.foldl_map]

theorem Encode_eq (v : Values) :
    v.Encode = encodePairs [] (pairsOf v (Values.sortKeys v.keys)) := by
  unfold Values.Encode
  by_cases h : v.length = 0
  · have hv : v = [] := List.length_eq_zero.1 h
    subst hv
    rfl
  · rw [if_neg h, foldl_keys_eq]

theorem parsePair_pairStr (st : Values × Option Error) (p : GoString × GoString) :
    parsePair st (pairStr p) = addPair st p := by
  obtain ⟨m, err⟩ := st
  have hsemi : strings.Contains (pairStr p) (str ";") = false := by
    have hs : str ";" = [ch ';'] := rfl
    rw [hs, Bool.eq_false_iff]
    intro h
    exact (pairStr_plain p _ ((strings.Contains_single _ _).1 h)).2 rfl
  have heq : ch '=' ∉ QueryEscape p.1 := fun h => (QueryEscape_plain _ _ h).2.1 rfl
  have hcut : strings.Cut (pairStr p) (str "=") = (QueryEscape p.1, QueryEscape p.2, true) := by
    have hs : str "=" = [ch '='] := rfl
    rw [hs]
    unfold pairStr
    rw [List.append_assoc, List.singleton_append]
    exact strings.Cut_single_append _ _ _ heq
  simp only [parsePair, hsemi, pairStr_ne_nil, hcut, QueryUnescape_QueryEscape, addPair]
  simp

theorem parseFrom_tail (ps : List (GoString × GoString)) :
    ∀ (st : Values × Option Error) (seg : GoString), ch '&' ∉ seg →
      parseFrom st (seg ++ tailStr ps) = ps.foldl addPair (parsePair st seg) := by
  induction ps with
  | nil =>
    intro st seg h
    simp only [tailStr, List.append_nil, List.foldl_nil]
    exact parseFrom_last st seg h
  | cons p ps ih =>
    intro st seg h
    rw [tailStr, List.cons_append, parseFrom_append st seg _ h, ih _ _ (amp_not_mem_pairStr p),
      parsePair_pairStr, List.foldl_cons]

theorem parseFrom_encodePairs (st : Values × Option Error) (ps : List (GoString × GoString)) :
    parseFrom st (encodePairs [] ps) = ps.foldl addPair st := by
  cases ps with
  | nil => rfl
  | cons p ps =>
    rw [encodePairs_nil_cons, parseFrom_tail ps st _ (amp_not_mem_pairStr p), parsePair_pairStr,
      List.foldl_cons]

theorem foldl_addPair_err (ps : List (GoString × GoString)) :
    ∀ st : Values × Option Error, (ps.foldl addPair st).2 = st.2 := by
  induction ps with
  | nil => intro st; rfl
  | cons p ps ih => intro st; rw [List.foldl_cons, ih]; rfl

theorem foldl_addPair_lookup (key : GoString) (ps : List (GoString × GoString)) :
    ∀ st : Values × Option Error,
      Values.lookup (ps.foldl addPair st).1 key =
        Values.lookup st.1 key ++ (ps.filter (fun p => p.1 = key)).map Prod.snd := by
  induction ps with
  | nil => intro st; simp
  | cons p ps ih =>
    intro st
    rw [List.foldl_cons, ih]
    simp only [addPair, Values.lookup_store]
    by_cases h : p.1 = key
    · subst h
      simp [List.filter_cons]
    · simp [List.filter_cons, h]

theorem pairsOf_filter_not_mem (v : Values) (key : GoString) (ks : List GoString)
    (h : key ∉ ks) : (pairsOf v ks).filter (fun p => p.1 = key) = [] := by
  induction ks with
  | nil => rfl
  | cons k ks ih =>
    simp only [List.mem_cons, not_or] at h
    rw [pairsOf, List.filter_append, ih h.2, List.append_nil, List.filter_map]
    have : (fun p : GoString × GoString => decide (p.1 = key)) ∘ (fun x => (k, x)) =
        fun _ => false := by
      funext x
      simp [Ne.symm h.1]
    rw [this]
    simp

theorem pairsOf_filter_mem (v : Values) (key : GoString) (ks : List GoString)
    (hn : ks.Nodup) (h : key ∈ ks) :
    ((pairsOf v ks).filter (fun p => p.1 = key)).map Prod.snd = Values.lookup v key := by
  induction ks with
  | nil => simp at h
  | cons k ks ih =>
    rw [List.nodup_cons] at hn
    rw [pairsOf, List.filter_append, List.map_append, List.filter_map]
    by_cases hk : k = key
    · subst hk
      rw [pairsOf_filter_not_mem v k ks hn.1]
      have : (fun p : GoString × GoString => decide (p.1 = k)) ∘ (fun x => (k, x)) =
          fun _ => true := by
        funext x
        simp
      rw [this]
      simp
    · have hmem : key ∈ ks := by
        rcases List.mem_cons.1 h with h | h
        · exact absurd h.symm hk
        · exact h
      rw [ih hn.2 hmem]
      have : (fun p : GoString × GoString => decide (p.1 = key)) ∘ (fun x => (k, x)) =
          fun _ => false := by
        funext x
        simp [hk]
      rw [this]
      simp

theorem sortKeys_perm (ks : List GoString) : (Values.sortKeys ks).Perm ks :=
  List.perm_insertionSort _ ks

theorem count_amp_tailStr (ps : List (GoString × GoString)) :
    (tailStr ps).count (ch '&') = ps.length := by
  induction ps with
  | nil => rfl
  | cons p ps ih =>
    rw [tailStr, List.count_append, List.count_cons_self,
      List.count_eq_zero.2 (amp_not_mem_pairStr p), ih, List.length_cons]
    omega

theorem Count_encodePairs_le (ps : List (GoString × GoString))
    (h : ps.length ≤ defaultMaxParams) :
    strings.Count (encodePairs [] ps) (ch '&') + 1 ≤ defaultMaxParams := by
  cases ps with
  | nil => decide
  | cons p ps =>
    rw [encodePairs_nil_cons]
    unfold strings.Count
    rw [List.count_append, List.count_eq_zero.2 (amp_not_mem_pairStr p), count_amp_tailStr]
    rw [List.length_cons] at h
    omega

theorem length_pairsOf (v : Values) (ks : List GoString) :
    (pairsOf v ks).length = (ks.map (fun k => (Values.lookup v k).length)).sum := by
  induction ks with
  | nil => rfl
  | cons k ks ih =>
    rw [pairsOf, List.length_append, List.length_map, ih, List.map_cons, List.sum_cons]

theorem sum_lookup_keys (v : Values) (hv : v.keys.Nodup) :
    (v.keys.map (fun k => (Values.lookup v k).length)).sum = Values.total v := by
  induction v with
  | nil => rfl
  | cons e v ih =>
    obtain ⟨k, vs⟩ := e
    have hn : k ∉ Values.keys v ∧ (Values.keys v).Nodup := List.nodup_cons.1 hv
    have hrest : (Values.keys v).map (fun key => (Values.lookup ((k, vs) :: v) key).length) =
        (Values.keys v).map (fun key => (Values.lookup v key).length) := by
      apply List.map_congr_left
      intro key hkey
      have hne : k ≠ key := fun h => hn.1 (h ▸ hkey)
      simp [Values.lookup, hne]
    have hhead : Values.lookup ((k, vs) :: v) k = vs := by simp [Values.lookup]
    show ((k :: Values.keys v).map (fun key => (Values.lookup ((k, vs) :: v) key).length)).sum =
      (((k, vs) :: v).map (fun e => e.2.length)).sum
    rw [List.map_cons, List.sum_cons, hrest, hhead, ih hn.2, List.map_cons, List.sum_cons]
    rfl

theorem length_pairsOf_sortKeys (v : Values) (hv : v.keys.Nodup) :
    (pairsOf v (Values.sortKeys v.keys)).length = Values.total v := by
  rw [length_pairsOf, ← sum_lookup_keys v hv]
  exact List.Perm.sum_eq (List.Perm.map _ (sortKeys_perm v.keys))

/-- Parsing an encoded map of at most `defaultMaxParams` values succeeds and gives back
the values of every key. -/
theorem ParseQuery_Encode (v : Values) (hv : v.keys.Nodup)
    (hsize : Values.total v ≤ defaultMaxParams) :
    (ParseQuery v.Encode).2 = none ∧
      ∀ key, Values.lookup (ParseQuery v.Encode).1 key = Values.lookup v key := by
  have hwithin : strings.Count v.Encode (ch '&') + 1 ≤ defaultMaxParams := by
    rw [Encode_eq]
    exact Count_encodePairs_le _ (by rw [length_pairsOf_sortKeys v hv]; exact hsize)
  rw [ParseQuery_of_within _ hwithin, Encode_eq, parseFrom_encodePairs]
  refine ⟨foldl_addPair_err _ _, fun key => ?_⟩
  rw [foldl_addPair_lookup]
  have hperm := sortKeys_perm v.keys
  by_cases hkey : key ∈ v.keys
  · rw [pairsOf_filter_mem v key _ ((List.Perm.nodup_iff hperm).2 hv) ((List.Perm.mem_iff hperm).2 hkey)]
    rfl
  · rw [pairsOf_filter_not_mem v key _ (fun h => hkey ((List.Perm.mem_iff hperm).1 h)),
      Values.lookup_eq_nil_of_not_mem v key hkey]
    rfl

theorem parsePair_WF (st : Values × Option Error) (key : GoString) (h : Values.WF st.1) :
    Values.WF (parsePair st key).1 := by
  obtain ⟨m, err⟩ := st
  unfold parsePair
  simp only
  repeat' split
  all_goals first | exact h | exact Values.WF_store _ _ _ h (by simp)

theorem parseQueryLoop_WF (n : Nat) : ∀ (st : Values × Option Error) (q : GoString),
    Values.WF st.1 → Values.WF (parseQueryLoop n st q).1 := by
  induction n with
  | zero => intro st q h; exact h
  | succ n ih =>
    intro st q h
    unfold parseQueryLoop
    split
    · exact h
    · exact ih _ _ (parsePair_WF _ _ h)

theorem ParseQuery_WF (q : GoString) : Values.WF (ParseQuery q).1 := by
  rw [ParseQuery_eq]
  split
  · exact Values.WF_nil
  · exact parseQueryLoop_WF _ _ _ Values.WF_nil

end url

/-! ## Lemmas: the original director -/

namespace httputil

theorem HasPrefix_slash (s : GoString) :
    strings.HasPrefix s (str "/") = true ↔ ∃ t, s = ch '/' :: t := by
  rw [strings.HasPrefix_iff]
  have hs : str "/" = [ch '/'] := rfl
  rw [hs]
  constructor
  · rintro ⟨t, rfl⟩
    exact ⟨t, rfl⟩
  · rintro ⟨t, rfl⟩
    exact ⟨t, rfl⟩

theorem rooted_ne_star (t : GoString) : ch '/' :: t ≠ str "*" := by
  intro h
  have hs : str "*" = [ch '*'] := rfl
  rw [hs] at h
  injection h with h1 _
  exact absurd h1 (by decide)

theorem EscapedPath_rooted (u : url.URL) (t r : GoString) (hp : u.Path = ch '/' :: t)
    (hr : u.RawPath = ch '/' :: r) : ∃ e, u.EscapedPath = ch '/' :: e := by
  unfold url.URL.EscapedPath
  split
  · exact ⟨r, hr⟩
  · have hstar : u.Path ≠ str "*" := by
      rw [hp]
      exact rooted_ne_star t
    rw [if_neg hstar, hp]
    have hesc : url.shouldEscape (ch '/') .encodePath = false := by decide
    exact ⟨url.escape t .encodePath, by simp [url.escape, hesc]⟩

theorem upstream_EscapedPath : main.upstream.EscapedPath = [] := by decide

theorem joinURLPath_rooted (u : url.URL) (t : GoString) (hp : u.Path = ch '/' :: t)
    (hr : u.RawPath = [] ∨ ∃ r, u.RawPath = ch '/' :: r) :
    (joinURLPath main.upstream u).1 = u.Path := by
  have hb : strings.HasPrefix u.Path (str "/") = true := (HasPrefix_slash _).2 ⟨t, hp⟩
  have ha : strings.HasSuffix ([] : GoString) (str "/") = false := by decide
  have hu1 : main.upstream.RawPath = [] := rfl
  have hu2 : main.upstream.Path = [] := rfl
  unfold joinURLPath
  rcases hr with hr | ⟨r, hr⟩
  · simp [hu1, hu2, hr, singleJoiningSlash, ha, hb]
  · obtain ⟨e, he⟩ := EscapedPath_rooted u t r hp hr
    have hb2 : strings.HasPrefix u.EscapedPath (str "/") = true := (HasPrefix_slash _).2 ⟨e, he⟩
    simp [hu1, hu2, hr, upstream_EscapedPath, ha, hb2]

theorem joinURLPath_cases (u : url.URL) :
    (joinURLPath main.upstream u).1 = u.Path ∨
      (joinURLPath main.upstream u).1 = ch '/' :: u.Path := by
  have ha : strings.HasSuffix ([] : GoString) (str "/") = false := by decide
  have hu1 : main.upstream.RawPath = [] := rfl
  have hu2 : main.upstream.Path = [] := rfl
  have hs : str "/" = [ch '/'] := rfl
  unfold joinURLPath
  by_cases hr : u.RawPath = []
  · by_cases hb : strings.HasPrefix u.Path (str "/") = true
    · left
      simp [hu1, hu2, hr, singleJoiningSlash, ha, hb]
    · right
      rw [hs] at ha hb
      simp [hu1, hu2, hr, singleJoiningSlash, ha, hb, hs]
  · by_cases hb : strings.HasPrefix u.EscapedPath (str "/") = true
    · left
      simp [hu1, hu2, hr, upstream_EscapedPath, ha, hb]
    · right
      rw [hs] at ha hb
      simp [hu1, hu2, hr, upstream_EscapedPath, ha, hb, hs]

end httputil

namespace main

theorem originalDirector_RawQuery (req : http.Request) :
    (originalDirector req).URL.RawQuery = req.URL.RawQuery := by
  have hu : upstream.RawQuery = [] := rfl
  simp [originalDirector, httputil.rewriteRequestURL, hu]

theorem originalDirector_Path (req : http.Request) :
    (originalDirector req).URL.Path = (httputil.joinURLPath upstream req.URL).1 := by
  simp [originalDirector, httputil.rewriteRequestURL]

theorem originalDirector_withRawQuery_Path (req : http.Request) (q : GoString) :
    (originalDirector (withRawQuery req q)).URL.Path = (originalDirector req).URL.Path := by
  rw [originalDirector_Path, originalDirector_Path]
  rfl

theorem Director_RawQuery (req : http.Request) :
    (Director req).URL.RawQuery =
      rewriteQuery (originalDirector req).URL.Path req.URL.RawQuery := by
  unfold Director rewriteQuery scopeOf url.URL.Query
  simp only [originalDirector_RawQuery]
  split
  · split
    · split
      · rfl
      · exact originalDirector_RawQuery req
    · exact originalDirector_RawQuery req
  · exact originalDirector_RawQuery req

/-- A served request whose path has the authorization prefix keeps its path through
the original director. -/
theorem served_qualifying_Path (req : http.Request) (hs : http.servedURL req.URL = true)
    (hp : strings.HasPrefix req.URL.Path (str "/api/oidc/authorization") = true) :
    (originalDirector req).URL.Path = req.URL.Path := by
  rw [originalDirector_Path]
  obtain ⟨t, ht⟩ : ∃ t, req.URL.Path = ch '/' :: t := by
    obtain ⟨t, ht⟩ := (strings.HasPrefix_iff _ _).1 hp
    exact ⟨str "api/oidc/authorization" ++ t, ht.symm⟩
  have hstar : req.URL.Path ≠ str "*" := by
    rw [ht]
    exact httputil.rooted_ne_star t
  have hne : req.URL.Path ≠ [] := by
    rw [ht]
    exact List.cons_ne_nil _ _
  apply httputil.joinURLPath_rooted _ t ht
  unfold http.servedURL at hs
  simp only [Bool.or_eq_true, Bool.and_eq_true, beq_iff_eq, hstar, hne, false_and, false_or] at hs
  rcases hs.2 with h | h
  · exact Or.inl h
  · exact Or.inr ((httputil.HasPrefix_slash _).1 h)

/-- A served request whose path lacks the authorization prefix does not gain it
through the original director. -/
theorem served_other_Path (req : http.Request) (hs : http.servedURL req.URL = true)
    (hp : strings.HasPrefix req.URL.Path (str "/api/oidc/authorization") = false) :
    strings.HasPrefix (originalDirector req).URL.Path (str "/api/oidc/authorization") = false := by
  rw [originalDirector_Path]
  unfold http.servedURL at hs
  simp only [Bool.or_eq_true, Bool.and_eq_true, beq_iff_eq] at hs
  rcases hs with (⟨h1, -⟩ | ⟨h1, -⟩) | ⟨h1, h2⟩
  · rcases httputil.joinURLPath_cases req.URL with h | h <;> rw [h, h1] <;> decide
  · rcases httputil.joinURLPath_cases req.URL with h | h <;> rw [h, h1] <;> decide
  · obtain ⟨t, ht⟩ := (httputil.HasPrefix_slash _).1 h1
    have hr : req.URL.RawPath = [] ∨ ∃ r, req.URL.RawPath = ch '/' :: r := by
      rcases h2 with h | h
      · exact Or.inl h
      · exact Or.inr ((httputil.HasPrefix_slash _).1 h)
    rw [httputil.joinURLPath_rooted _ t ht hr]
    exact hp

end main

/-! ## Lemmas: the query rewrite -/

namespace main

theorem rewriteQuery_of_not_qualifying (path q : GoString)
    (h : strings.HasPrefix path (str "/api/oidc/authorization") = false) :
    rewriteQuery path q = q := by
  simp [rewriteQuery, h]

theorem rewriteQuery_of_scope_nil (path q : GoString) (h : scopeOf q = []) :
    rewriteQuery path q = q := by
  simp [rewriteQuery, h]

theorem rewriteQuery_of_contains (path q : GoString)
    (h : strings.Contains (scopeOf q) groupsScope = true) : rewriteQuery path q = q := by
  simp [rewriteQuery, h]

theorem rewriteQuery_mutates (path q : GoString)
    (hp : strings.HasPrefix path (str "/api/oidc/authorization") = true)
    (hne : scopeOf q ≠ []) (hno : strings.Contains (scopeOf q) groupsScope = false) :
    rewriteQuery path q =
      ((url.ParseQuery q).1.Set (str "scope") (scopeOf q ++ str " " ++ groupsScope)).Encode := by
  simp [rewriteQuery, hp, hne, hno]

theorem rewriteQuery_cases (path q : GoString) :
    rewriteQuery path q = q ∨
      (strings.HasPrefix path (str "/api/oidc/authorization") = true ∧ scopeOf q ≠ [] ∧
        strings.Contains (scopeOf q) groupsScope = false) := by
  by_cases hp : strings.HasPrefix path (str "/api/oidc/authorization") = true
  · by_cases hne : scopeOf q = []
    · exact Or.inl (rewriteQuery_of_scope_nil path q hne)
    · by_cases hc : strings.Contains (scopeOf q) groupsScope = true
      · exact Or.inl (rewriteQuery_of_contains path q hc)
      · exact Or.inr ⟨hp, hne, by simpa using hc⟩
  · exact Or.inl (rewriteQuery_of_not_qualifying path q (by simpa using hp))

/-- A query over the limit has no scope value: the parser yields no values at all. -/
theorem scopeOf_beyond_limit (q : GoString)
    (h : url.defaultMaxParams < strings.Count q (ch '&') + 1) : scopeOf q = [] := by
  unfold scopeOf
  rw [url.ParseQuery_of_beyond q h]
  rfl

/-- The Director leaves a query of more than `defaultMaxParams` pieces as it is. -/
theorem Director_keeps_query_beyond_limit (req : http.Request)
    (h : url.defaultMaxParams < strings.Count req.URL.RawQuery (ch '&') + 1) :
    (Director req).URL.RawQuery = req.URL.RawQuery := by
  rw [Director_RawQuery]
  exact rewriteQuery_of_scope_nil _ _ (scopeOf_beyond_limit _ h)

theorem lookup_scope_ne_nil (q : GoString) (h : scopeOf q ≠ []) :
    url.Values.lookup (url.ParseQuery q).1 (str "scope") ≠ [] := by
  intro hl
  apply h
  simp [scopeOf, url.Values.Get, hl]

/-- Parsing the re-encoded query succeeds; `scope` has the one new value and every
other key the values it had. -/
theorem ParseQuery_Set_Encode (q value : GoString) (hscope : scopeOf q ≠ []) :
    (url.ParseQuery ((url.ParseQuery q).1.Set (str "scope") value).Encode).2 = none ∧
      ∀ key, url.Values.lookup
          (url.ParseQuery ((url.ParseQuery q).1.Set (str "scope") value).Encode).1 key =
        if str "scope" = key then [value] else url.Values.lookup (url.ParseQuery q).1 key := by
  have hwf : url.Values.WF ((url.ParseQuery q).1.Set (str "scope") value) :=
    url.Values.WF_store _ _ _ (url.ParseQuery_WF q) (by simp)
  have hsize : url.Values.total ((url.ParseQuery q).1.Set (str "scope") value) ≤
      url.defaultMaxParams :=
    le_trans (url.Values.total_Set_le _ _ _ (lookup_scope_ne_nil q hscope))
      (url.ParseQuery_total q)
  obtain ⟨h1, h2⟩ := url.ParseQuery_Encode _ hwf.1 hsize
  refine ⟨h1, fun key => ?_⟩
  rw [h2, url.Values.Set, url.Values.lookup_store]

theorem scopeOf_Set_Encode (q value : GoString) (hscope : scopeOf q ≠ []) :
    scopeOf ((url.ParseQuery q).1.Set (str "scope") value).Encode = value := by
  unfold scopeOf url.Values.Get
  rw [(ParseQuery_Set_Encode q value hscope).2, if_pos rfl]

theorem Contains_append_groups (s : GoString) :
    strings.Contains (s ++ str " " ++ groupsScope) groupsScope = true := by
  rw [strings.Contains_iff]
  exact List.IsSuffix.isInfix (List.suffix_append _ _)

theorem rewriteQuery_idempotent (path q : GoString) :
    rewriteQuery path (rewriteQuery path q) = rewriteQuery path q := by
  rcases rewriteQuery_cases path q with h | ⟨hp, hne, hno⟩
  · rw [h, h]
  · rw [rewriteQuery_mutates path q hp hne hno]
    apply rewriteQuery_of_contains
    rw [scopeOf_Set_Encode _ _ hne]
    exact Contains_append_groups _

theorem rewriteTimes_succ (req : http.Request) (n : Nat) :
    rewriteTimes req (n + 1) =
      rewriteQuery (originalDirector req).URL.Path (rewriteTimes req n) := by
  rw [rewriteTimes, Director_RawQuery, originalDirector_withRawQuery_Path]
  rfl

theorem rewriteTimes_eq_one (req : http.Request) (n : Nat) :
    rewriteTimes req (n + 1) = rewriteTimes req 1 := by
  induction n with
  | zero => rfl
  | succ n ih =>
    rw [rewriteTimes_succ, ih, rewriteTimes_succ, rewriteQuery_idempotent]

/-! ## Lemmas: scope tokens -/

theorem tokensFrom_infix (s : GoString) : ∀ (cur t : GoString),
    t ∈ tokensFrom cur s → t <:+: cur ++ s := by
  induction s with
  | nil =>
    intro cur t h
    by_cases hc : cur = []
    · simp [tokensFrom, hc] at h
    · simp only [tokensFrom, hc, if_false, List.mem_singleton] at h
      rw [h, List.append_nil]
  | cons c s ih =>
    intro cur t h
    unfold tokensFrom at h
    by_cases hsp : isSpace c = true
    · rw [if_pos hsp] at h
      have hrest : t ∈ tokensFrom [] s → t <:+: cur ++ c :: s := fun hm =>
        List.IsInfix.trans (ih [] t hm)
          (List.IsSuffix.isInfix ⟨cur ++ [c], by simp⟩)
      by_cases hc : cur = []
      · rw [if_pos hc] at h
        exact hrest h
      · rw [if_neg hc, List.mem_cons] at h
        rcases h with h | h
        · rw [h]
          exact List.IsPrefix.isInfix (List.prefix_append _ _)
        · exact hrest h
    · rw [if_neg hsp] at h
      have := ih (cur ++ [c]) t h
      simpa using this

theorem Contains_of_mem_scopeTokens (s t : GoString) (h : t ∈ scopeTokens s) :
    strings.Contains s t = true := by
  rw [strings.Contains_iff]
  simpa using tokensFrom_infix s [] t h

theorem tokensFrom_append_space (g s : GoString) : ∀ cur : GoString,
    tokensFrom cur (s ++ ch ' ' :: g) = tokensFrom cur s ++ tokensFrom [] g := by
  have hsp : isSpace (ch ' ') = true := by decide
  induction s with
  | nil =>
    intro cur
    by_cases hc : cur = [] <;> simp [tokensFrom, hsp, hc]
  | cons c s ih =>
    intro cur
    rw [List.cons_append, tokensFrom, tokensFrom]
    by_cases hc : isSpace c = true
    · by_cases hcur : cur = [] <;> simp [hc, hcur, ih]
    · simp [hc, ih]

theorem scopeTokens_append_groups (s : GoString) :
    scopeTokens (s ++ str " " ++ groupsScope) = scopeTokens s ++ [groupsScope] := by
  have h1 : str " " = [ch ' '] := rfl
  have h2 : tokensFrom [] groupsScope = [groupsScope] := by decide
  unfold scopeTokens
  rw [h1, List.append_assoc, List.singleton_append, tokensFrom_append_space, h2]

theorem count_groups_of_not_contains (s : GoString)
    (h : strings.Contains s groupsScope = false) : (scopeTokens s).count groupsScope = 0 := by
  rw [List.count_eq_zero]
  intro hm
  rw [Contains_of_mem_scopeTokens s _ hm] at h
  exact Bool.noConfusion h

end main

/-! ## Lemmas: routing -/

namespace strings

theorem Split_of_not_mem (s : GoString) (c : Byte) (h : c ∉ s) : Split s c = [s] := by
  induction s with
  | nil => rfl
  | cons a s ih =>
    simp only [List.mem_cons, not_or] at h
    simp [Split, Ne.symm h.1, ih h.2]

theorem Split_cons_sep (s : GoString) (c : Byte) : Split (c :: s) c = [] :: Split s c := by
  simp [Split]

end strings

namespace url

theorem unescape_segment_mode (n : Nat) : ∀ s : GoString, s.length ≤ n →
    unescape s .encodePathSegment = unescape s .encodePath := by
  induction n with
  | zero =>
    intro s hs
    have : s = [] := List.length_eq_zero.1 (Nat.le_zero.1 hs)
    subst this
    rfl
  | succ n ih =>
    intro s hs
    rcases s with _ | ⟨c, s⟩
    · rfl
    · by_cases hc : c = ch '%'
      · subst hc
        rcases s with _ | ⟨a, _ | ⟨b, rest⟩⟩
        · rfl
        · rfl
        · have hrest := ih rest (by simp only [List.length_cons] at hs; omega)
          by_cases hx : (ishex a && ishex b) = true
          · simp only [Bool.and_eq_true] at hx
            rw [unescape_percent _ _ _ _ hx.1 hx.2, unescape_percent _ _ _ _ hx.1 hx.2, hrest]
          · simp [unescape, hx]
      · have hs2 := ih s (by simp only [List.length_cons] at hs; omega)
        rw [unescape_cons _ _ _ hc, unescape_cons _ _ _ hc, hs2]
        simp

theorem PathUnescape_eq (s : GoString) : PathUnescape s = unescape s .encodePath :=
  unescape_segment_mode s.length s (le_refl _)

theorem unescape_path_mem (n : Nat) : ∀ (s t : GoString) (c : Byte), s.length ≤ n →
    unescape s .encodePath = .ok t → c ∈ s → ishex c = false → c ≠ ch '%' → c ∈ t := by
  induction n with
  | zero =>
    intro s t c hs _ hc
    have : s = [] := List.length_eq_zero.1 (Nat.le_zero.1 hs)
    subst this
    simp at hc
  | succ n ih =>
    intro s t c hs hu hc hx hp
    rcases s with _ | ⟨c0, s⟩
    · simp at hc
    · by_cases h0 : c0 = ch '%'
      · subst h0
        rcases s with _ | ⟨a, _ | ⟨b, rest⟩⟩
        · simp [unescape] at hu
        · simp [unescape] at hu
        · by_cases hab : (ishex a && ishex b) = true
          · simp only [Bool.and_eq_true] at hab
            rw [unescape_percent _ _ _ _ hab.1 hab.2] at hu
            cases hr : unescape rest .encodePath with
            | error e => rw [hr] at hu; simp at hu
            | ok t1 =>
              rw [hr] at hu
              simp only [Except.ok.injEq] at hu
              have hmem : c ∈ rest := by
                simp only [List.mem_cons] at hc
                rcases hc with h | h | h | h
                · exact absurd h hp
                · rw [h, hab.1] at hx
                  exact Bool.noConfusion hx
                · rw [h, hab.2] at hx
                  exact Bool.noConfusion hx
                · exact h
              have := ih rest t1 c (by simp only [List.length_cons] at hs; omega) hr hmem hx hp
              rw [← hu]
              exact List.mem_cons_of_mem _ this
          · simp [unescape, hab] at hu
      · rw [unescape_cons _ _ _ h0] at hu
        cases hr : unescape s .encodePath with
        | error e => rw [hr] at hu; simp at hu
        | ok t1 =>
          rw [hr] at hu
          simp only [Except.ok.injEq] at hu
          rw [← hu]
          rcases List.mem_cons.1 hc with h | h
          · subst h
            simp
          · exact List.mem_cons_of_mem _
              (ih s t1 c (by simp only [List.length_cons] at hs; omega) hr h hx hp)

end url

namespace http

theorem healthz_decodes : url.unescape (str "healthz") .encodePath = .ok (str "healthz") :=
  rfl

/-- The escaped path of a served URL with path `/healthz` is a slash and one segment
that decodes to `healthz`. -/
theorem EscapedPath_healthz (u : url.URL) (hs : servedURL u = true)
    (hp : u.Path = str "/healthz") :
    ∃ enc, u.EscapedPath = ch '/' :: enc ∧
      url.unescape enc .encodePath = .ok (str "healthz") := by
  have hstar : u.Path ≠ str "*" := by rw [hp]; decide
  have hpath : str "/healthz" = ch '/' :: str "healthz" := rfl
  unfold url.URL.EscapedPath
  split
  · rename_i hcond
    simp only [Bool.and_eq_true, decide_eq_true_eq] at hcond
    obtain ⟨⟨hne, -⟩, hdec⟩ := hcond
    have hne2 : u.RawPath ≠ [] := by simpa using hne
    obtain ⟨enc, henc⟩ : ∃ enc, u.RawPath = ch '/' :: enc := by
      unfold servedURL at hs
      simp only [Bool.or_eq_true, Bool.and_eq_true, beq_iff_eq, hne2, and_false, or_false,
        false_or] at hs
      exact (httputil.HasPrefix_slash _).1 hs.2
    refine ⟨enc, henc, ?_⟩
    rw [henc, url.unescape_cons _ _ _ (by decide)] at hdec
    cases hr : url.unescape enc .encodePath with
    | error e => rw [hr] at hdec; simp at hdec
    | ok t =>
      rw [hr] at hdec
      have h1 : ch '/' ≠ ch '+' := by decide
      simp only [h1, false_and, Bool.false_and, if_false, beq_iff_eq, hp, hpath,
        List.cons.injEq, true_and, decide_False] at hdec
      rw [hdec.2]
  · rw [hp]
    exact ⟨str "healthz", by decide, healthz_decodes⟩

theorem healthz_segment (enc : GoString)
    (h : url.unescape enc .encodePath = .ok (str "healthz")) :
    ch '/' ∉ enc ∧ enc ≠ [] ∧ enc ≠ str "." ∧ enc ≠ str ".." ∧
      pathUnescape enc = str "healthz" := by
  refine ⟨?_, ?_, ?_, ?_, ?_⟩
  · intro hmem
    have := url.unescape_path_mem enc.length enc _ _ (le_refl _) h hmem (by decide) (by decide)
    revert this
    decide
  · intro he
    rw [he] at h
    have h0 : url.unescape [] .encodePath = .ok [] := rfl
    rw [h0, Except.ok.injEq] at h
    exact absurd h (by decide)
  · intro he
    rw [he] at h
    have h0 : url.unescape (str ".") .encodePath = .ok (str ".") := rfl
    rw [h0, Except.ok.injEq] at h
    exact absurd h (by decide)
  · intro he
    rw [he] at h
    have h0 : url.unescape (str "..") .encodePath = .ok (str "..") := rfl
    rw [h0, Except.ok.injEq] at h
    exact absurd h (by decide)
  · unfold pathUnescape
    rw [url.PathUnescape_eq, h]

theorem pathSegments_single (enc : GoString) (h1 : ch '/' ∉ enc) (h2 : enc ≠ []) :
    pathSegments (ch '/' :: enc) = [pathUnescape enc] := by
  unfold pathSegments
  rw [if_neg (List.cons_ne_nil _ _)]
  simp only [List.drop_succ_cons, List.drop_zero, strings.Split_of_not_mem enc _ h1,
    List.dropLast_single, List.map_nil, List.nil_append, List.getLast?_singleton]

theorem Clean_single (enc : GoString) (h1 : ch '/' ∉ enc) (h2 : enc ≠ [])
    (h3 : enc ≠ str ".") (h4 : enc ≠ str "..") : path.Clean (ch '/' :: enc) = ch '/' :: enc := by
  have hs : str "/" = [ch '/'] := rfl
  unfold path.Clean
  rw [if_neg (List.cons_ne_nil _ _)]
  simp only [List.head?_cons, decide_True, if_true, strings.Split_cons_sep,
    strings.Split_of_not_mem enc _ h1, List.foldl_cons, List.foldl_nil]
  simp [path.cleanStep, h2, h3, h4, hs, List.intercalate, List.intersperse]

theorem cleanPath_single (enc : GoString) (h1 : ch '/' ∉ enc) (h2 : enc ≠ [])
    (h3 : enc ≠ str ".") (h4 : enc ≠ str "..") : cleanPath (ch '/' :: enc) = ch '/' :: enc := by
  have hlast : (ch '/' :: enc).getLast? ≠ some (ch '/') := by
    intro h
    rcases enc with _ | ⟨e, es⟩
    · exact h2 rfl
    · rw [List.getLast?_cons_cons] at h
      exact h1 (List.mem_of_getLast?_eq_some h)
  unfold cleanPath
  rw [if_neg (List.cons_ne_nil _ _)]
  simp only [List.head?_cons, ne_eq, not_true_eq_false, if_false, Clean_single enc h1 h2 h3 h4,
    hlast, false_and]

theorem findHandler_healthz (r : Request) (hs : servedURL r.URL = true)
    (hp : r.URL.Path = str "/healthz") : main.mux.findHandler r = .healthz := by
  obtain ⟨enc, hE, hdec⟩ := EscapedPath_healthz r.URL hs hp
  obtain ⟨h1, h2, h3, h4, h5⟩ := healthz_segment enc hdec
  have hmatch : main.mux.«match» (ch '/' :: enc) =
      some (parsePattern (str "/healthz"), .healthz) := by
    unfold ServeMux.«match»
    rw [pathSegments_single enc h1 h2, h5]
    decide
  have hexact : ∀ path, exactMatch (some (parsePattern (str "/healthz"), .healthz)) path =
      true := by
    intro path
    have hm : (parsePattern (str "/healthz")).lastMulti = false := by decide
    simp [exactMatch, hm]
  have hmr : ∀ u, main.mux.matchOrRedirect (ch '/' :: enc) u =
      (some (parsePattern (str "/healthz"), .healthz), none) := by
    intro u
    unfold ServeMux.matchOrRedirect
    rw [hmatch]
    cases u <;> simp [hexact]
  unfold ServeMux.findHandler
  simp only [hE, cleanPath_single enc h1 h2 h3 h4, hmr]
  split <;> simp

theorem serverHandler_healthz (r : Request) (hs : servedURL r.URL = true)
    (ht : r.RequestURI ≠ str "*") (hp : r.URL.Path = str "/healthz") :
    serverHandler main.mux r = .healthz := by
  unfold serverHandler
  simp only [ht, false_and, if_false]
  exact findHandler_healthz r hs hp

end http

/-! ## The properties of the proxy -/

namespace main

/-- C1. An inbound request whose path does not start with `/api/oidc/authorization`
leaves the Director with the raw query it came with, whatever that query is
(well-formed or not). Inbound requests are those the server hands to a handler
(`http.servedURL`): their path is `*`, empty or starts with `/`, so the slash the
original director puts in front of a path without one cannot complete the prefix. -/
theorem Director_keeps_query_off_authorization_path (req : http.Request)
    (hserved : http.servedURL req.URL = true)
    (hpath : strings.HasPrefix req.URL.Path (str "/api/oidc/authorization") = false) :
    (Director req).URL.RawQuery = req.URL.RawQuery := by
  rw [Director_RawQuery]
  exact rewriteQuery_of_not_qualifying _ _ (served_other_Path req hserved hpath)

theorem Director_keeps_query_off_authorization_path_witness :
    http.servedURL (exampleRequest (str "/api/oidc/token") (str "scope=openid&x=%zz")).URL = true ∧
    strings.HasPrefix (exampleRequest (str "/api/oidc/token") (str "scope=openid&x=%zz")).URL.Path
      (str "/api/oidc/authorization") = false ∧
    (Director (exampleRequest (str "/api/oidc/token") (str "scope=openid&x=%zz"))).URL.RawQuery =
      (exampleRequest (str "/api/oidc/token") (str "scope=openid&x=%zz")).URL.RawQuery :=
  ⟨by decide, by decide,
    Director_keeps_query_off_authorization_path _ (by decide) (by decide)⟩

/-- C2. For a served request whose path starts with `/api/oidc/authorization` and whose
`scope` value `s` is non-empty and does not contain `groups`, the outbound raw query,
parsed, has exactly one `scope` value, and it is `s` followed by one space and `groups`. -/
theorem Director_appends_groups_to_scope (req : http.Request)
    (hserved : http.servedURL req.URL = true)
    (hpath : strings.HasPrefix req.URL.Path (str "/api/oidc/authorization") = true)
    (hne : scopeOf req.URL.RawQuery ≠ [])
    (hno : strings.Contains (scopeOf req.URL.RawQuery) groupsScope = false) :
    url.Values.lookup (Director req).URL.Query (str "scope") =
      [scopeOf req.URL.RawQuery ++ str " " ++ groupsScope] := by
  unfold url.URL.Query
  rw [Director_RawQuery, served_qualifying_Path req hserved hpath,
    rewriteQuery_mutates _ _ hpath hne hno, (ParseQuery_Set_Encode _ _ hne).2, if_pos rfl]

theorem Director_appends_groups_to_scope_witness :
    http.servedURL (exampleRequest (str "/api/oidc/authorization")
      (str "scope=openid+profile")).URL = true ∧
    strings.HasPrefix (exampleRequest (str "/api/oidc/authorization")
      (str "scope=openid+profile")).URL.Path (str "/api/oidc/authorization") = true ∧
    scopeOf (str "scope=openid+profile") = str "openid profile" ∧
    strings.Contains (str "openid profile") groupsScope = false ∧
    url.Values.lookup (Director (exampleRequest (str "/api/oidc/authorization")
      (str "scope=openid+profile"))).URL.Query (str "scope") = [str "openid profile groups"] :=
  ⟨by decide, by decide, by decide, by decide,
    Director_appends_groups_to_scope
      (exampleRequest (str "/api/oidc/authorization") (str "scope=openid+profile"))
      (by decide) (by decide) (by decide) (by decide)⟩

/-- C3. For a request whose path starts with `/api/oidc/authorization` and whose `scope`
value has `groups` among its whitespace-delimited tokens, the Director leaves the raw
query untouched, so the outbound scope value is the inbound one. -/
theorem Director_keeps_scope_with_groups_token (req : http.Request)
    (_hpath : strings.HasPrefix req.URL.Path (str "/api/oidc/authorization") = true)
    (htoken : groupsScope ∈ scopeTokens (scopeOf req.URL.RawQuery)) :
    (Director req).URL.RawQuery = req.URL.RawQuery ∧
      scopeOf (Director req).URL.RawQuery = scopeOf req.URL.RawQuery := by
  have h : (Director req).URL.RawQuery = req.URL.RawQuery := by
    rw [Director_RawQuery]
    exact rewriteQuery_of_contains _ _ (Contains_of_mem_scopeTokens _ _ htoken)
  exact ⟨h, by rw [h]⟩

theorem Director_keeps_scope_with_groups_token_witness :
    strings.HasPrefix (exampleRequest (str "/api/oidc/authorization")
      (str "scope=openid+groups+profile")).URL.Path (str "/api/oidc/authorization") = true ∧
    groupsScope ∈ scopeTokens (scopeOf (str "scope=openid+groups+profile")) ∧
    (Director (exampleRequest (str "/api/oidc/authorization")
      (str "scope=openid+groups+profile"))).URL.RawQuery = str "scope=openid+groups+profile" :=
  ⟨by decide, by decide,
    (Director_keeps_scope_with_groups_token
      (exampleRequest (str "/api/oidc/authorization") (str "scope=openid+groups+profile"))
      (by decide) (by decide)).1⟩

/-- C4. For a request whose path starts with `/api/oidc/authorization` and whose query
has no `scope` parameter, or an empty one, the outbound raw query is the inbound one:
no `scope` is added and no `groups` is invented. -/
theorem Director_keeps_query_without_scope (req : http.Request)
    (_hpath : strings.HasPrefix req.URL.Path (str "/api/oidc/authorization") = true)
    (hscope : url.Values.lookup req.URL.Query (str "scope") = [] ∨
      url.Values.Get req.URL.Query (str "scope") = []) :
    (Director req).URL.RawQuery = req.URL.RawQuery := by
  have h : scopeOf req.URL.RawQuery = [] := by
    rcases hscope with h | h
    · unfold url.URL.Query at h
      simp [scopeOf, url.Values.Get, h]
    · exact h
  rw [Director_RawQuery]
  exact rewriteQuery_of_scope_nil _ _ h

theorem Director_keeps_query_without_scope_witness :
    strings.HasPrefix (exampleRequest (str "/api/oidc/authorization")
      (str "client_id=app&state=1")).URL.Path (str "/api/oidc/authorization") = true ∧
    url.Values.lookup (exampleRequest (str "/api/oidc/authorization")
      (str "client_id=app&state=1")).URL.Query (str "scope") = [] ∧
    (Director (exampleRequest (str "/api/oidc/authorization")
      (str "client_id=app&state=1"))).URL.RawQuery = str "client_id=app&state=1" :=
  ⟨by decide, by decide,
    Director_keeps_query_without_scope
      (exampleRequest (str "/api/oidc/authorization") (str "client_id=app&state=1"))
      (by decide) (Or.inl (by decide))⟩

/-- C5. The query rewrite is idempotent: sending a request through the Director again
with the raw query the Director produced gives that same raw query, for every path
and every inbound query. -/
theorem Director_rewrite_idempotent (req : http.Request) :
    (Director (withRawQuery req (Director req).URL.RawQuery)).URL.RawQuery =
      (Director req).URL.RawQuery := by
  rw [Director_RawQuery, originalDirector_withRawQuery_Path, Director_RawQuery]
  exact rewriteQuery_idempotent _ _


/-- C6, as stated, fails: on `/api/oidc/authorization?x=%zz&scope=openid` the query does
not parse (`%zz` is no escape), yet the Director rewrites it to `scope=openid+groups`. -/
theorem Director_rewrites_unparseable_query :
    http.servedURL (exampleRequest (str "/api/oidc/authorization")
      (str "x=%zz&scope=openid")).URL = true ∧
    strings.HasPrefix (exampleRequest (str "/api/oidc/authorization")
      (str "x=%zz&scope=openid")).URL.Path (str "/api/oidc/authorization") = true ∧
    (url.ParseQuery (str "x=%zz&scope=openid")).2 = some (.EscapeError (str "%zz")) ∧
    (Director (exampleRequest (str "/api/oidc/authorization")
      (str "x=%zz&scope=openid"))).URL.RawQuery = str "scope=openid+groups" ∧
    (Director (exampleRequest (str "/api/oidc/authorization")
      (str "x=%zz&scope=openid"))).URL.RawQuery ≠
      (exampleRequest (str "/api/oidc/authorization") (str "x=%zz&scope=openid")).URL.RawQuery := by
  decide

/-- C6, amended. For a served request whose path starts with `/api/oidc/authorization`
and whose query does not parse, the Director still yields an outbound request. Its raw
query is the inbound one when the `scope` value that `Query()` yields is empty or
contains `groups`; that is so, in particular, for a query of more than 10000
`&`-separated pieces, which the parser refuses whole. When the value is non-empty and
lacks `groups`, the raw query is the encoding of the well-formed pairs with `scope` set
to the value followed by ` groups`: it parses without error, so it is not the inbound
one, and the malformed pairs are gone. -/
theorem Director_on_unparseable_query (req : http.Request)
    (hserved : http.servedURL req.URL = true)
    (hpath : strings.HasPrefix req.URL.Path (str "/api/oidc/authorization") = true)
    (herr : (url.ParseQuery req.URL.RawQuery).2 ≠ none) :
    ((scopeOf req.URL.RawQuery = [] ∨
        strings.Contains (scopeOf req.URL.RawQuery) groupsScope = true) →
      (Director req).URL.RawQuery = req.URL.RawQuery) ∧
    ((scopeOf req.URL.RawQuery ≠ [] ∧
        strings.Contains (scopeOf req.URL.RawQuery) groupsScope = false) →
      (Director req).URL.RawQuery =
          (req.URL.Query.Set (str "scope")
            (scopeOf req.URL.RawQuery ++ str " " ++ groupsScope)).Encode ∧
        (url.ParseQuery (Director req).URL.RawQuery).2 = none ∧
        (Director req).URL.RawQuery ≠ req.URL.RawQuery ∧
        ∀ key, url.Values.lookup (Director req).URL.Query key =
          if str "scope" = key then [scopeOf req.URL.RawQuery ++ str " " ++ groupsScope]
          else url.Values.lookup req.URL.Query key) ∧
    (url.defaultMaxParams < strings.Count req.URL.RawQuery (ch '&') + 1 →
      (Director req).URL.RawQuery = req.URL.RawQuery) := by
  rw [Director_RawQuery, served_qualifying_Path req hserved hpath]
  refine ⟨?_, ?_, fun h => rewriteQuery_of_scope_nil _ _ (scopeOf_beyond_limit _ h)⟩
  · rintro (h | h)
    · exact rewriteQuery_of_scope_nil _ _ h
    · exact rewriteQuery_of_contains _ _ h
  · rintro ⟨hne, hno⟩
    have hout := rewriteQuery_mutates _ _ hpath hne hno
    have hparse := ParseQuery_Set_Encode req.URL.RawQuery
      (scopeOf req.URL.RawQuery ++ str " " ++ groupsScope) hne
    have hq : (Director req).URL.Query =
        (url.ParseQuery (rewriteQuery req.URL.Path req.URL.RawQuery)).1 := by
      unfold url.URL.Query
      rw [Director_RawQuery, served_qualifying_Path req hserved hpath]
    rw [hq, hout]
    refine ⟨rfl, hparse.1, ?_, hparse.2⟩
    intro heq
    rw [heq] at hparse
    exact herr hparse.1

theorem Director_on_unparseable_query_witness :
    http.servedURL (exampleRequest (str "/api/oidc/authorization")
      (str "scope=openid&y=%4")).URL = true ∧
    strings.HasPrefix (exampleRequest (str "/api/oidc/authorization")
      (str "scope=openid&y=%4")).URL.Path (str "/api/oidc/authorization") = true ∧
    (url.ParseQuery (str "scope=openid&y=%4")).2 ≠ none ∧
    scopeOf (str "scope=openid&y=%4") ≠ [] ∧
    strings.Contains (scopeOf (str "scope=openid&y=%4")) groupsScope = false ∧
    (url.ParseQuery (Director (exampleRequest (str "/api/oidc/authorization")
      (str "scope=openid&y=%4"))).URL.RawQuery).2 = none :=
  ⟨by decide, by decide, by decide, by decide, by decide,
    ((Director_on_unparseable_query
      (exampleRequest (str "/api/oidc/authorization") (str "scope=openid&y=%4"))
      (by decide) (by decide) (by decide)).2.1 ⟨by decide, by decide⟩).2.1⟩

/-- C7, as stated, fails for the method `HEAD`: `HEAD /healthz` is routed to the health
handler and answered with status 200, but the server sends no body for a `HEAD`
request, so the client does not get `OK`. -/
theorem healthz_HEAD_has_no_body :
    http.servedURL (headHealthz).URL = true ∧
    headHealthz.URL.Path = str "/healthz" ∧
    http.serverHandler mux headHealthz = .healthz ∧
    (serve (fun _ w _ => { response := w, forwarded := [] }) headHealthz).response.status = 200 ∧
    (serve (fun _ w _ => { response := w, forwarded := [] }) headHealthz).response.body = [] ∧
    (serve (fun _ w _ => { response := w, forwarded := [] }) headHealthz).response.body ≠
      str "OK" := by
  decide

/-- C7, amended. A request whose path is exactly `/healthz`, whatever its method, query,
headers or body and whatever the other handlers (the reverse proxy among them) do, is
routed to the health handler, which writes status 200 and `OK`: the client gets status
200 and the body `OK`, or no body if the method is `HEAD`; nothing is forwarded to the
upstream. The request is one the server hands over (`http.servedURL`); its target is
not `*`, whose parsed path is `*`. -/
theorem healthz_answered_locally
    (lib : http.Handler → http.ResponseWriter → http.Request → Served)
    (r : http.Request) (hserved : http.servedURL r.URL = true)
    (htarget : r.RequestURI ≠ str "*") (hpath : r.URL.Path = str "/healthz") :
    http.serverHandler mux r = .healthz ∧
      serve lib r =
        { response :=
            { reqMethod := r.Method, wroteHeader := true, status := 200,
              body := if r.Method = str "HEAD" then [] else str "OK" }
          forwarded := [] } := by
  have hh := http.serverHandler_healthz r hserved htarget hpath
  refine ⟨hh, ?_⟩
  unfold serve
  rw [hh]
  have hok : str "OK" ≠ [] := by decide
  by_cases hm : r.Method = str "HEAD"
  · simp [healthz, http.ResponseWriter.WriteHeader, http.ResponseWriter.Write,
      http.ResponseWriter.finishRequest, http.StatusOK, http.bodyAllowedForStatus, hm, hok]
  · simp [healthz, http.ResponseWriter.WriteHeader, http.ResponseWriter.Write,
      http.ResponseWriter.finishRequest, http.StatusOK, http.bodyAllowedForStatus, hm, hok]

theorem healthz_answered_locally_witness :
    http.servedURL postHealthz.URL = true ∧
    postHealthz.RequestURI ≠ str "*" ∧
    postHealthz.URL.Path = str "/healthz" ∧
    serve (fun _ w r => { response := w.WriteHeader 502, forwarded := [r] }) postHealthz =
      { response := { reqMethod := str "POST", wroteHeader := true, status := 200,
                      body := str "OK" }
        forwarded := [] } :=
  ⟨by decide, by decide, rfl,
    (healthz_answered_locally (fun _ w r => { response := w.WriteHeader 502, forwarded := [r] })
      postHealthz (by decide) (by decide) rfl).2⟩

/-- C8. The rewrite keeps `groups` at most once among the scope tokens: for a request
whose path starts with `/api/oidc/authorization` and whose inbound scope value has at
most one token `groups`, after any number `n ≥ 1` of passes through the Director the
scope value has at most one token `groups`, and exactly one if the raw query was
changed. -/
theorem rewriteTimes_groups_at_most_once (req : http.Request)
    (_hpath : strings.HasPrefix req.URL.Path (str "/api/oidc/authorization") = true)
    (hin : (scopeTokens (scopeOf req.URL.RawQuery)).count groupsScope ≤ 1)
    (n : Nat) (hn : 1 ≤ n) :
    (scopeTokens (scopeOf (rewriteTimes req n))).count groupsScope ≤ 1 ∧
      (rewriteTimes req n ≠ req.URL.RawQuery →
        (scopeTokens (scopeOf (rewriteTimes req n))).count groupsScope = 1) := by
  obtain ⟨k, rfl⟩ : ∃ k, n = k + 1 := ⟨n - 1, by omega⟩
  rw [rewriteTimes_eq_one, rewriteTimes_succ]
  show (scopeTokens (scopeOf (rewriteQuery _ req.URL.RawQuery))).count groupsScope ≤ 1 ∧
    (rewriteQuery _ req.URL.RawQuery ≠ req.URL.RawQuery →
      (scopeTokens (scopeOf (rewriteQuery _ req.URL.RawQuery))).count groupsScope = 1)
  rcases rewriteQuery_cases (originalDirector req).URL.Path req.URL.RawQuery with
    h | ⟨hp, hne, hno⟩
  · rw [h]
    exact ⟨hin, fun hc => absurd rfl hc⟩
  · have hone : (scopeTokens (scopeOf (rewriteQuery (originalDirector req).URL.Path
        req.URL.RawQuery))).count groupsScope = 1 := by
      rw [rewriteQuery_mutates _ _ hp hne hno, scopeOf_Set_Encode _ _ hne,
        scopeTokens_append_groups,
        List.count_append, count_groups_of_not_contains _ hno]
      simp
    exact ⟨le_of_eq hone, fun _ => hone⟩

theorem rewriteTimes_groups_at_most_once_witness :
    strings.HasPrefix (exampleRequest (str "/api/oidc/authorization")
      (str "scope=openid+email")).URL.Path (str "/api/oidc/authorization") = true ∧
    (scopeTokens (scopeOf (str "scope=openid+email"))).count groupsScope ≤ 1 ∧
    1 ≤ 3 ∧
    (scopeTokens (scopeOf (rewriteTimes (exampleRequest (str "/api/oidc/authorization")
      (str "scope=openid+email")) 3))).count groupsScope ≤ 1 :=
  ⟨by decide, by decide, by decide,
    (rewriteTimes_groups_at_most_once
      (exampleRequest (str "/api/oidc/authorization") (str "scope=openid+email"))
      (by decide) (by decide) 3 (by decide)).1⟩

/-- C9. Containment is a raw substring match: for a request whose path starts with
`/api/oidc/authorization` and whose scope value contains `groups` only inside a
longer token, the Director leaves the raw query untouched and the outbound scope
still has no token `groups`. -/
theorem Director_takes_substring_for_groups (req : http.Request)
    (_hpath : strings.HasPrefix req.URL.Path (str "/api/oidc/authorization") = true)
    (hsub : strings.Contains (scopeOf req.URL.RawQuery) groupsScope = true)
    (htoken : groupsScope ∉ scopeTokens (scopeOf req.URL.RawQuery)) :
    (Director req).URL.RawQuery = req.URL.RawQuery ∧
      groupsScope ∉ scopeTokens (scopeOf (Director req).URL.RawQuery) := by
  have h : (Director req).URL.RawQuery = req.URL.RawQuery := by
    rw [Director_RawQuery]
    exact rewriteQuery_of_contains _ _ hsub
  exact ⟨h, by rw [h]; exact htoken⟩

theorem Director_takes_substring_for_groups_witness :
    strings.HasPrefix (exampleRequest (str "/api/oidc/authorization")
      (str "scope=openid+groups-admin")).URL.Path (str "/api/oidc/authorization") = true ∧
    strings.Contains (scopeOf (str "scope=openid+groups-admin")) groupsScope = true ∧
    groupsScope ∉ scopeTokens (scopeOf (str "scope=openid+groups-admin")) ∧
    (Director (exampleRequest (str "/api/oidc/authorization")
      (str "scope=openid+groups-admin"))).URL.RawQuery = str "scope=openid+groups-admin" :=
  ⟨by decide, by decide, by decide,
    (Director_takes_substring_for_groups
      (exampleRequest (str "/api/oidc/authorization") (str "scope=openid+groups-admin"))
      (by decide) (by decide) (by decide)).1⟩

/-- C10. When the Director rewrites the query of a served request (path starting with
`/api/oidc/authorization`, scope non-empty and without `groups`), only `scope` changes:
every other parameter name has, in the parsed outbound query, the same decoded values
in the same order as in the parsed inbound query, and the parameter names are the same. -/
theorem Director_keeps_other_parameters (req : http.Request)
    (hserved : http.servedURL req.URL = true)
    (hpath : strings.HasPrefix req.URL.Path (str "/api/oidc/authorization") = true)
    (hne : scopeOf req.URL.RawQuery ≠ [])
    (hno : strings.Contains (scopeOf req.URL.RawQuery) groupsScope = false) :
    (∀ key, key ≠ str "scope" →
        url.Values.lookup (Director req).URL.Query key = url.Values.lookup req.URL.Query key) ∧
      ∀ key, key ∈ url.Values.keys (Director req).URL.Query ↔
        key ∈ url.Values.keys req.URL.Query := by
  have hq : (Director req).URL.Query =
      (url.ParseQuery ((url.ParseQuery req.URL.RawQuery).1.Set (str "scope")
        (scopeOf req.URL.RawQuery ++ str " " ++ groupsScope)).Encode).1 := by
    unfold url.URL.Query
    rw [Director_RawQuery, served_qualifying_Path req hserved hpath,
      rewriteQuery_mutates _ _ hpath hne hno]
  have hparse := (ParseQuery_Set_Encode req.URL.RawQuery
    (scopeOf req.URL.RawQuery ++ str " " ++ groupsScope) hne).2
  have hother : ∀ key, key ≠ str "scope" →
      url.Values.lookup (Director req).URL.Query key = url.Values.lookup req.URL.Query key := by
    intro key hkey
    rw [hq, hparse, if_neg (Ne.symm hkey)]
    rfl
  refine ⟨hother, fun key => ?_⟩
  have hwf1 : url.Values.WF (Director req).URL.Query := url.ParseQuery_WF _
  have hwf2 : url.Values.WF req.URL.Query := url.ParseQuery_WF _
  rw [url.Values.mem_keys_iff _ hwf1, url.Values.mem_keys_iff _ hwf2]
  by_cases hkey : key = str "scope"
  · subst hkey
    have h1 : url.Values.lookup (Director req).URL.Query (str "scope") ≠ [] := by
      rw [hq, hparse, if_pos rfl]
      exact List.cons_ne_nil _ _
    have h2 : url.Values.lookup req.URL.Query (str "scope") ≠ [] := by
      intro h
      apply hne
      unfold url.URL.Query at h
      simp [scopeOf, url.Values.Get, h]
    exact ⟨fun _ => h2, fun _ => h1⟩
  · rw [hother key hkey]

theorem Director_keeps_other_parameters_witness :
    http.servedURL (exampleRequest (str "/api/oidc/authorization")
      (str "state=a%20b&scope=openid&state=c")).URL = true ∧
    strings.HasPrefix (exampleRequest (str "/api/oidc/authorization")
      (str "state=a%20b&scope=openid&state=c")).URL.Path (str "/api/oidc/authorization") = true ∧
    scopeOf (str "state=a%20b&scope=openid&state=c") ≠ [] ∧
    strings.Contains (scopeOf (str "state=a%20b&scope=openid&state=c")) groupsScope = false ∧
    url.Values.lookup (Director (exampleRequest (str "/api/oidc/authorization")
      (str "state=a%20b&scope=openid&state=c"))).URL.Query (str "state") = [str "a b", str "c"] :=
  ⟨by decide, by decide, by decide, by decide,
    ((Director_keeps_other_parameters
      (exampleRequest (str "/api/oidc/authorization") (str "state=a%20b&scope=openid&state=c"))
      (by decide) (by decide) (by decide) (by decide)).1 (str "state") (by decide)).trans
      (by decide)⟩

end main
